import Mathlib

/-!
Shallow embedding of the core analysis engine of `oligoscreen_pairwise`
(src/src/analysis/{iupac,fasta,analyzer,screener,aligner,pairwise}.rs),
together with theorems settling the frozen claims about it.

Modelling conventions:
* Rust byte strings are modelled as `List Char` (all data is ASCII).
* Rust `usize` is `Nat`; `f64` percentage arithmetic is modelled exactly
  with `ℚ` (the claims only exercise values where `f64` arithmetic is
  exact, and the code compares plain sums/quotients of small integers).
* `HashMap`/`HashSet` iteration order is unspecified in Rust; the
  embedding fixes one concrete order (list order / `List.dedup`).  All
  properties proved below are insensitive to that choice.
* The two `while` loops of `analyzer.rs` are embedded with an explicit
  fuel argument equal to the input length; the theorems below show this
  fuel is never exhausted on the inputs the claims quantify over.
-/

/-- A DNA sequence (renamed from ambient Seq), one `Char` per byte of the Rust `&str`/`&[u8]`. -/
abbrev DnaSeq := List Char

/-! ### iupac.rs : alphabet / bitmask module -/

/-- `base_to_bit` (iupac.rs): DNA base byte → 4-bit mask
(bit0=A, bit1=C, bit2=G, bit3=T); unrecognized bytes → 0. -/
def base_to_bit (b : Char) : Nat :=
  match b with
  | 'A' => 1
  | 'C' => 2
  | 'G' => 4
  | 'T' => 8
  | 'R' => 5
  | 'Y' => 10
  | 'S' => 6
  | 'W' => 9
  | 'K' => 12
  | 'M' => 3
  | 'B' => 14
  | 'D' => 13
  | 'H' => 11
  | 'V' => 7
  | 'N' => 15
  | _ => 0

/-- `IUPAC_FROM_MASK` (iupac.rs): lookup table, 4-bit mask index → IUPAC
code byte.  Index 0 (no bases) maps to `?`. -/
def IUPAC_FROM_MASK : List Char :=
  ['?', 'A', 'C', 'M', 'G', 'R', 'S', 'V', 'T', 'W', 'Y', 'H', 'K', 'D', 'B', 'N']

/-- Table access `IUPAC_FROM_MASK[m as usize]`; every mask produced by the
code is `< 16`, so the default is never hit there. -/
def iupac_from_mask (m : Nat) : Char :=
  IUPAC_FROM_MASK.getD m '?'

/-- `u8::count_ones` restricted to the 4 low bits; all masks occurring in
the code are `< 16`. -/
def countOnes (m : Nat) : Nat :=
  m % 2 + m / 2 % 2 + m / 4 % 2 + m / 8 % 2

/-- `is_standard_base` (iupac.rs). -/
def is_standard_base (c : Char) : Bool :=
  c = 'A' || c = 'C' || c = 'G' || c = 'T'

/-- `is_ambiguous_base` (iupac.rs). -/
def is_ambiguous_base (c : Char) : Bool :=
  c = 'R' || c = 'Y' || c = 'S' || c = 'W' || c = 'K' || c = 'M' ||
  c = 'B' || c = 'D' || c = 'H' || c = 'V' || c = 'N'

/-- `is_gap` (iupac.rs). -/
def is_gap (c : Char) : Bool :=
  c = '-' || c = '.'

/-- `count_ambiguities` (iupac.rs): number of ambiguity-code positions. -/
def count_ambiguities (s : DnaSeq) : Nat :=
  (s.filter is_ambiguous_base).length

/-- `sequence_matches_consensus_bytes` (iupac.rs): equal lengths and a
nonzero mask intersection at every position. -/
def sequence_matches_consensus_bytes (seq consensus : DnaSeq) : Bool :=
  seq.length = consensus.length &&
    (seq.zip consensus).all fun sc => base_to_bit sc.1 &&& base_to_bit sc.2 != 0

/-! ### types.rs : data model -/

/-- `Variant` (types.rs). -/
structure Variant where
  sequence : DnaSeq
  count : Nat
  percentage : ℚ
  deriving Repr, DecidableEq

/-- `AnalysisMethod` (types.rs). -/
inductive AnalysisMethod where
  | NoAmbiguities : AnalysisMethod
  | FixedAmbiguities : Nat → AnalysisMethod
  | Incremental : Nat → Option Nat → AnalysisMethod
  deriving Repr, DecidableEq

/-- `WindowAnalysisResult` (types.rs). -/
structure WindowAnalysisResult where
  variants : List Variant
  total_sequences : Nat
  sequences_analyzed : Nat
  variants_for_threshold : Nat
  coverage_at_threshold : ℚ
  skipped : Bool
  skip_reason : Option String
  deriving Repr, DecidableEq

/-- `Default for WindowAnalysisResult` (types.rs). -/
def WindowAnalysisResult.default : WindowAnalysisResult :=
  { variants := []
    total_sequences := 0
    sequences_analyzed := 0
    variants_for_threshold := 0
    coverage_at_threshold := 0
    skipped := false
    skip_reason := none }

/-! ### analyzer.rs : variant search -/

/-- `find_variants_no_ambiguities` (analyzer.rs): deduplicate, count
occurrences, one `Variant` per distinct sequence, `sort_by` count
descending.  Rust's `sort_by` is a stable sort and the pre-sort order is
`HashMap` iteration order (unspecified); the embedding fixes the pre-sort
order to `List.dedup` order and uses the stable `insertionSort`. -/
def find_variants_no_ambiguities (sequences : List DnaSeq) : List Variant :=
  let total : ℚ := sequences.length
  let variants := sequences.dedup.map fun s =>
    ({ sequence := s, count := sequences.count s,
       percentage := (sequences.count s : ℚ) / total * 100 } : Variant)
  variants.insertionSort fun a b => b.count ≤ a.count

/-- The per-position 4-bit mask array initialized from a seed
(`group_mask[pos] = base_to_bit(seed_bytes[pos])`, `pos in 0..seq_len`).
An out-of-range read — an index panic in Rust, unreachable for the
equal-length inputs the claims quantify over — reads as the empty mask. -/
def initMask (seed : DnaSeq) (seqLen : Nat) : List Nat :=
  (List.range seqLen).map fun pos => base_to_bit (seed.getD pos '?')

/-- The merged trial mask `group_mask[pos] | base_to_bit(other_bytes[pos])`
over all positions of the running mask (same out-of-range convention). -/
def orMask : List Nat → DnaSeq → List Nat
  | [], _ => []
  | m :: ms, [] => m :: orMask ms []
  | m :: ms, c :: cs => (m ||| base_to_bit c) :: orMask ms cs

/-- The candidate validity scan (the inner `for pos` loop of both
`find_best_consensus` and `find_incremental_consensus`): walk the merged
mask counting ambiguity positions, failing as soon as the count exceeds
`maxAmb` or (when `excludeN`) a position becomes the full mask 15. -/
def trialScan (excludeN : Bool) (maxAmb : Nat) : List Nat → Nat → Bool
  | [], _ => true
  | m :: rest, amb =>
    if countOnes m > 1 then
      if (excludeN && m == 15) || amb + 1 > maxAmb then false
      else trialScan excludeN maxAmb rest (amb + 1)
    else trialScan excludeN maxAmb rest amb

/-- The `for &other_seq in uncovered` fold of `find_best_consensus` /
`find_incremental_consensus` (analyzer.rs): fold each other sequence into
the running mask, committing only when the trial scan stays valid. -/
def foldCandidates (excludeN : Bool) (maxAmb : Nat) (seed : DnaSeq)
    (others : List DnaSeq) (mask : List Nat) : List Nat :=
  others.foldl
    (fun gm other =>
      if other = seed then gm
      else
        let merged := orMask gm other
        if trialScan excludeN maxAmb merged 0 then merged else gm)
    mask

/-- `consensus_from_mask` (analyzer.rs): consensus string, ambiguity
count, and validity from a mask array; invalid when `excludeN` and a
multi-base position maps to the code `N`. -/
def consensusFromMaskGo (excludeN : Bool) : List Nat → DnaSeq → Nat → DnaSeq × Nat × Bool
  | [], acc, amb => (acc, amb, true)
  | m :: rest, acc, amb =>
    let code := iupac_from_mask m
    if countOnes m > 1 then
      if excludeN && code == 'N' then (acc, amb + 1, false)
      else consensusFromMaskGo excludeN rest (acc ++ [code]) (amb + 1)
    else consensusFromMaskGo excludeN rest (acc ++ [code]) amb

/-- `consensus_from_mask` (analyzer.rs), entry point. -/
def consensus_from_mask (excludeN : Bool) (mask : List Nat) : DnaSeq × Nat × Bool :=
  consensusFromMaskGo excludeN mask [] 0

/-- `find_best_consensus` (analyzer.rs): try the up-to-50 highest-count
uncovered sequences as seeds (stable sort by count descending), fold in
candidates, re-validate each candidate consensus by literal pattern
matching against the uncovered pool, and keep the best summed-weight
consensus.  This is the per-seed body of the seed loop. -/
def bestConsensusStep (uncovered : List DnaSeq) (counts : DnaSeq → Nat)
    (maxAmb : Nat) (excludeN : Bool) (seqLen : Nat)
    (best : DnaSeq × List DnaSeq × Nat) (seed : DnaSeq) : DnaSeq × List DnaSeq × Nat :=
  let gm := foldCandidates excludeN maxAmb seed uncovered (initMask seed seqLen)
  let cav := consensus_from_mask excludeN gm
  if cav.2.2 = false then best
  else
    let coverage := uncovered.filter fun s => sequence_matches_consensus_bytes s cav.1
    let score := (coverage.map counts).sum
    if score > best.2.2 then (cav.1, coverage, score) else best

/-- `find_best_consensus` (analyzer.rs): fold `bestConsensusStep` over the
up-to-50 highest-count seeds (stable sort by count descending).
Returns (best consensus, its validated coverage). -/
def find_best_consensus (uncovered : List DnaSeq) (counts : DnaSeq → Nat)
    (maxAmb : Nat) (excludeN : Bool) : DnaSeq × List DnaSeq :=
  let sorted := uncovered.insertionSort fun a b => counts b ≤ counts a
  let seqLen := (sorted.headD []).length
  if seqLen = 0 then ([], [])
  else
    let final := (sorted.take 50).foldl
      (bestConsensusStep uncovered counts maxAmb excludeN seqLen) ([], [], 0)
    (final.1, final.2.1)

/-- Loop body of `find_minimum_variants_greedy` (analyzer.rs); the fuel
argument stands in for `while !uncovered.is_empty()` (fuel
`uncovered.length` always suffices: every iteration removes at least one
uncovered sequence, see the C10 theorem).  `uncovered.remove` of the
coverage set is expressed as a filter; the fallback `unwrap_or(&1)` is
dead code since `most_freq` is always a key of `seq_counts`. -/
def greedyGo (sequences : List DnaSeq) (maxAmb : Nat) (excludeN : Bool) :
    Nat → List DnaSeq → List Variant
  | 0, _ => []
  | fuel + 1, uncovered =>
    if uncovered = [] then []
    else
      let total : ℚ := sequences.length
      let bc := find_best_consensus uncovered (fun s => sequences.count s) maxAmb excludeN
      if bc.2 = [] then
        match uncovered.argmax fun s => sequences.count s with
        | none => []
        | some mostFreq =>
          let count := sequences.count mostFreq
          ({ sequence := mostFreq, count := count,
             percentage := (count : ℚ) / total * 100 } : Variant) ::
            greedyGo sequences maxAmb excludeN fuel (uncovered.erase mostFreq)
      else
        let count := (bc.2.map fun s => sequences.count s).sum
        ({ sequence := bc.1, count := count,
           percentage := (count : ℚ) / total * 100 } : Variant) ::
          greedyGo sequences maxAmb excludeN fuel
            (uncovered.filter fun s => decide (s ∉ bc.2))

/-- `find_minimum_variants_greedy` (analyzer.rs): greedy set cover with
ambiguity codes; `uncovered` starts as the distinct sequences. -/
def find_minimum_variants_greedy (sequences : List DnaSeq) (maxAmb : Nat)
    (excludeN : Bool) : List Variant :=
  if sequences = [] then []
  else greedyGo sequences maxAmb excludeN sequences.dedup.length sequences.dedup

/-- Running best of `find_incremental_consensus` (analyzer.rs):
`best_consensus`, `best_coverage_count`, `found_target`. -/
structure IncBest where
  consensus : DnaSeq
  coverage : Nat
  found : Bool

/-- Per-seed body of the seed loop of `find_incremental_consensus`
(analyzer.rs): build the candidate consensus for one seed at one ambiguity
level, re-validate its coverage, and update the running best under the
found-target discipline of the source. -/
def incrementalSeedStep (uniqueRemaining : List DnaSeq) (counts : DnaSeq → Nat)
    (targetCount : Nat) (excludeN : Bool) (seqLen level : Nat)
    (st : IncBest) (seed : DnaSeq) : IncBest :=
  let gm := foldCandidates excludeN level seed uniqueRemaining (initMask seed seqLen)
  let cav := consensus_from_mask excludeN gm
  if cav.2.2 = false ∨ cav.2.1 > level then st
  else
    let coverageCount := (uniqueRemaining.map fun u =>
      if sequence_matches_consensus_bytes u cav.1 then counts u else 0).sum
    if coverageCount ≥ targetCount then
      if ¬ st.found ∨ coverageCount > st.coverage then ⟨cav.1, coverageCount, true⟩
      else st
    else
      if coverageCount > st.coverage then ⟨cav.1, coverageCount, st.found⟩
      else st

/-- One ambiguity level of `find_incremental_consensus` (analyzer.rs):
skipped entirely once the target was reached (the source's
`if found_target break`), otherwise all seeds at this level are tried. -/
def incrementalLevelStep (uniqueRemaining : List DnaSeq) (counts : DnaSeq → Nat)
    (targetCount : Nat) (excludeN : Bool) (seqLen : Nat)
    (st : IncBest) (level : Nat) : IncBest :=
  if st.found then st
  else
    ((uniqueRemaining.insertionSort fun a b => counts b ≤ counts a).take 50).foldl
      (incrementalSeedStep uniqueRemaining counts targetCount excludeN seqLen level) st

/-- `find_incremental_consensus` (analyzer.rs): escalate the ambiguity
budget from 0 to the cap (window length when uncapped); at each level try
the up-to-50 highest-count seeds; stop at the first level reaching
`target_count` validated coverage; otherwise keep the best coverage seen;
fall back to the most frequent remaining sequence when nothing was found. -/
def find_incremental_consensus (uniqueRemaining : List DnaSeq)
    (counts : DnaSeq → Nat) (targetCount : Nat) (excludeN : Bool)
    (maxAmb : Option Nat) : DnaSeq × Nat :=
  if uniqueRemaining = [] then ([], 0)
  else
    let seqLen := (uniqueRemaining.headD []).length
    let maxAmbLevel := maxAmb.getD seqLen
    let finalSt := (List.range (maxAmbLevel + 1)).foldl
      (incrementalLevelStep uniqueRemaining counts targetCount excludeN seqLen)
      ⟨[], 0, false⟩
    if finalSt.consensus = [] then
      match uniqueRemaining.argmax counts with
      | none => (finalSt.consensus, finalSt.coverage)
      | some mostFreq => (mostFreq, counts mostFreq)
    else (finalSt.consensus, finalSt.coverage)

/-- Loop body of `find_incremental_variants` (analyzer.rs); fuel stands in
for `while !remaining.is_empty()` (fuel `remaining.length` suffices on the
inputs the C3 theorem quantifies over).  `ceil() as usize` on a
non-negative value is `Int.toNat ∘ Int.ceil` (the cast saturates at 0 for
negative values, as Rust's float-to-int cast does). -/
def incrementalGo (totalOriginal : Nat) (targetPct : ℚ) (excludeN : Bool)
    (maxAmb : Option Nat) : Nat → List DnaSeq → List Variant
  | 0, _ => []
  | fuel + 1, remaining =>
    if remaining = [] then []
    else
      let remainingTotal := remaining.length
      let targetCount := (⌈targetPct / 100 * (remainingTotal : ℚ)⌉).toNat
      let uniqueRemaining := remaining.dedup
      let bc := find_incremental_consensus uniqueRemaining
        (fun s => remaining.count s) targetCount excludeN maxAmb
      ({ sequence := bc.1, count := bc.2,
         percentage := (bc.2 : ℚ) / (totalOriginal : ℚ) * 100 } : Variant) ::
        incrementalGo totalOriginal targetPct excludeN maxAmb fuel
          (remaining.filter fun s => !(sequence_matches_consensus_bytes s bc.1))

/-- `find_incremental_variants` (analyzer.rs). -/
def find_incremental_variants (sequences : List DnaSeq) (targetPct : ℚ)
    (excludeN : Bool) (maxAmb : Option Nat) : List Variant :=
  if sequences = [] then []
  else incrementalGo sequences.length targetPct excludeN maxAmb
    sequences.length sequences

/-- Scan loop of `calculate_variants_for_threshold` (analyzer.rs). -/
def thresholdGo (threshold : ℚ) : List Variant → Nat → ℚ → Nat × ℚ
  | [], consumed, cumulative => (consumed, cumulative)
  | v :: rest, consumed, cumulative =>
    let c := cumulative + v.percentage
    if c ≥ threshold then (consumed + 1, c)
    else thresholdGo threshold rest (consumed + 1) c

/-- `calculate_variants_for_threshold` (analyzer.rs). -/
def calculate_variants_for_threshold (variants : List Variant) (total : Nat)
    (threshold : ℚ) : Nat × ℚ :=
  if variants = [] ∨ total = 0 then (0, 0)
  else thresholdGo threshold variants 0 0

/-- `analyze_sequences` (analyzer.rs).  (The Rust struct literal here also
names a `no_match_count` field that the `types.rs` of this snapshot does
not declare; the embedding follows `types.rs`.) -/
def analyze_sequences (sequences : List DnaSeq) (method : AnalysisMethod)
    (excludeN : Bool) (coverageThreshold : ℚ) : WindowAnalysisResult :=
  if sequences = [] then
    { WindowAnalysisResult.default with
        skipped := true, skip_reason := some "No sequences to analyze" }
  else
    let total := sequences.length
    let variants :=
      match method with
      | .NoAmbiguities => find_variants_no_ambiguities sequences
      | .FixedAmbiguities maxAmb => find_minimum_variants_greedy sequences maxAmb excludeN
      | .Incremental targetPct maxAmb =>
        find_incremental_variants sequences (targetPct : ℚ) excludeN maxAmb
    let vt := calculate_variants_for_threshold variants total coverageThreshold
    { variants := variants
      total_sequences := total
      sequences_analyzed := total
      variants_for_threshold := vt.1
      coverage_at_threshold := vt.2
      skipped := false
      skip_reason := none }

/-! ### fasta.rs : alignment data and window filtering -/

/-- `AlignmentData` (fasta.rs). -/
structure AlignmentData where
  sequences : List DnaSeq
  names : List String
  alignment_length : Nat

/-- `extract_window` (fasta.rs): the `[start, start+length)` slice of
every sequence that is long enough. -/
def Fasta.extract_window (data : AlignmentData) (start length : Nat) : List DnaSeq :=
  data.sequences.filterMap fun s =>
    if start + length ≤ s.length then some ((s.drop start).take length) else none

/-- `window_has_gaps` (fasta.rs). -/
def window_has_gaps (w : DnaSeq) : Bool := w.any is_gap

/-- `window_has_ambiguous` (fasta.rs). -/
def window_has_ambiguous (w : DnaSeq) : Bool := w.any is_ambiguous_base

/-- `filter_window_sequences` (fasta.rs): returns
(filtered sequences, gap count, ambiguous count); a window with a gap is
counted as gapped even if it also has ambiguous bases. -/
def filter_window_sequences : List DnaSeq → List DnaSeq × Nat × Nat
  | [] => ([], 0, 0)
  | w :: rest =>
    let r := filter_window_sequences rest
    if window_has_gaps w then (r.1, r.2.1 + 1, r.2.2)
    else if window_has_ambiguous w then (r.1, r.2.1, r.2.2 + 1)
    else (w :: r.1, r.2.1, r.2.2)

/-! ### screener.rs : per-window analysis -/

/-- `MAX_EXCLUDED_PERCENTAGE` (screener.rs). -/
def MAX_EXCLUDED_PERCENTAGE : ℚ := 20

/-- `AnalysisParams` (the fields the screener of this snapshot reads;
the concurrency knobs of `types.rs` are irrelevant to every claim). -/
structure AnalysisParams where
  method : AnalysisMethod
  exclude_n : Bool
  min_oligo_length : Nat
  max_oligo_length : Nat
  resolution : Nat
  coverage_threshold : ℚ

/-- `analyze_window` (screener.rs): extract the windows, count gapped and
ambiguous sequences, skip when either fraction alone exceeds
`MAX_EXCLUDED_PERCENTAGE`, otherwise analyze the filtered sequences.
The numeric `{:.1}` formatting inside the reason strings is abstracted;
the strings distinguish the same four skip cases as the source. -/
def analyze_window (data : AlignmentData) (params : AnalysisParams)
    (position length : Nat) : WindowAnalysisResult :=
  let windows := Fasta.extract_window data position length
  let total := windows.length
  if total = 0 then
    { WindowAnalysisResult.default with
        skipped := true
        skip_reason := some "No sequences at this position"
        total_sequences := 0 }
  else
    let fga := filter_window_sequences windows
    let gap_percentage := (fga.2.1 : ℚ) / (total : ℚ) * 100
    if gap_percentage > MAX_EXCLUDED_PERCENTAGE then
      { WindowAnalysisResult.default with
          skipped := true
          skip_reason := some "Too many gaps"
          total_sequences := total }
    else
      let ambiguous_percentage := (fga.2.2 : ℚ) / (total : ℚ) * 100
      if ambiguous_percentage > MAX_EXCLUDED_PERCENTAGE then
        { WindowAnalysisResult.default with
            skipped := true
            skip_reason := some "Too many ambiguous bases"
            total_sequences := total }
      else if fga.1 = [] then
        { WindowAnalysisResult.default with
            skipped := true
            skip_reason := some "No valid sequences after filtering"
            total_sequences := total }
      else
        let result := analyze_sequences fga.1 params.method params.exclude_n
          params.coverage_threshold
        { result with total_sequences := total, sequences_analyzed := fga.1.length }

/-! ### aligner.rs : position maps -/

/-- `PositionMap` (aligner.rs). -/
structure PositionMap where
  template_to_target : List (Option Nat)
  score : Int
  max_possible_score : Int
  is_valid : Bool

/-- The `for t_pos in template_start..(template_start+window_length)` loop
of `PositionMap::extract_window` (aligner.rs), collecting one target char
per covered template position. -/
def windowChars (pm : List (Option Nat)) (target : DnaSeq) : Nat → Nat → Option DnaSeq
  | _, 0 => some []
  | tPos, n + 1 =>
    match pm[tPos]? with
    | none => none
    | some none => none
    | some (some targetPos) =>
      match target[targetPos]? with
      | none => none
      | some c => (windowChars pm target (tPos + 1) n).map fun r => c :: r

/-- `PositionMap::extract_window` (aligner.rs), including the final
defensive length check of the source. -/
def PositionMap.extract_window (self : PositionMap) (target : DnaSeq)
    (templateStart windowLength : Nat) : Option DnaSeq :=
  match windowChars self.template_to_target target templateStart windowLength with
  | none => none
  | some r => if r.length ≠ windowLength then none else some r

/-! ### pairwise.rs : local oligo matching -/

/-- `bio::alignment::AlignmentOperation`. -/
inductive AlignmentOperation where
  | Match : AlignmentOperation
  | Subst : AlignmentOperation
  | Del : AlignmentOperation
  | Ins : AlignmentOperation
  | Xclip : Nat → AlignmentOperation
  | Yclip : Nat → AlignmentOperation
  deriving Repr, DecidableEq

/-- `bio::alignment::Alignment`, named `BioAlignment` to avoid a Mathlib name clash (the fields `process_alignment` reads). -/
structure BioAlignment where
  operations : List AlignmentOperation
  xstart : Nat
  xend : Nat
  ystart : Nat
  yend : Nat
  score : Int

/-- `PairwiseParams` — its struct declaration is outside this snapshot;
fields modelled from the use sites in pairwise.rs (and spec §3's
pairwise-match knobs). -/
structure PairwiseParams where
  match_score : Int
  mismatch_score : Int
  gap_open_penalty : Int
  gap_extend_penalty : Int
  max_mismatches : Nat

/-- `PairwiseMatch` (pairwise.rs). -/
structure PairwiseMatch where
  matched_sequence : DnaSeq
  score : Int
  mismatches : Nat
  has_gaps : Bool
  full_coverage : Bool

/-- `process_alignment` (pairwise.rs).  The rust-bio aligner is external
to the repository, so the local alignment it produces is an uninterpreted
function parameter `aligner`; the classification logic is from source. -/
def process_alignment (aligner : DnaSeq → DnaSeq → BioAlignment)
    (oligo reference : DnaSeq) : PairwiseMatch :=
  let alignment := aligner oligo reference
  let has_gaps := alignment.operations.any fun op =>
    op = AlignmentOperation.Del || op = AlignmentOperation.Ins
  let mismatches := alignment.operations.countP fun op =>
    op = AlignmentOperation.Subst
  let aligned_query_len := alignment.xend - alignment.xstart
  let full_coverage : Bool := aligned_query_len = oligo.length
  let matched_sequence :=
    if !has_gaps && full_coverage then
      (reference.drop alignment.ystart).take (alignment.yend - alignment.ystart)
    else []
  { matched_sequence := matched_sequence
    score := alignment.score
    mismatches := mismatches
    has_gaps := has_gaps
    full_coverage := full_coverage }

/-- `collect_matches` (pairwise.rs): align the oligo against every
reference, rejecting (counting as "no match") on gaps, partial coverage,
or too many mismatches.  (The shared reusable aligner buffer of the source
is a performance device only; `references.foldl` is written as direct
recursion.)  Returns (matched sequences, no-match count). -/
def collect_matches (aligner : DnaSeq → DnaSeq → BioAlignment) (oligo : DnaSeq)
    (references : List DnaSeq) (params : PairwiseParams) : List DnaSeq × Nat :=
  match references with
  | [] => ([], 0)
  | reference :: rest =>
    let result := process_alignment aligner oligo reference
    let r := collect_matches aligner oligo rest params
    if !result.full_coverage || result.has_gaps ||
        decide (result.mismatches > params.max_mismatches) then
      (r.1, r.2 + 1)
    else (result.matched_sequence :: r.1, r.2)

/-! ### Theorems: claims C8 and C9 (alphabet module) -/

/-- The 15 valid DNA/IUPAC bytes. -/
def validIupacCodes : List Char :=
  ['A', 'C', 'G', 'T', 'R', 'Y', 'S', 'W', 'K', 'M', 'B', 'D', 'H', 'V', 'N']

/-- C8: for each of the 15 valid DNA/IUPAC bytes `b`,
`mask_to_code (base_to_mask b) = b`; over all 16 masks the table is the
inverse lookup (masks 1..15 round-trip through `base_to_bit`), and mask 0
is the reserved invalid entry `?`. -/
theorem c8_mask_roundtrip :
    (validIupacCodes.all fun b => iupac_from_mask (base_to_bit b) == b) = true ∧
    (((List.range 16).filter fun m => m != 0).all
      fun m => base_to_bit (iupac_from_mask m) == m) = true ∧
    iupac_from_mask 0 = '?' := by
  refine ⟨by decide, by decide, rfl⟩

/-- C9: `sequence_matches_consensus_bytes seq pattern` is `true` exactly
when the lengths are equal and every position has a nonzero AND of the two
base masks; the four example pairs behave as the spec states. -/
theorem c9_pattern_matching :
    (∀ seq pattern : DnaSeq,
      sequence_matches_consensus_bytes seq pattern = true ↔
        seq.length = pattern.length ∧
          ∀ i, i < seq.length →
            base_to_bit (seq.getD i '?') &&& base_to_bit (pattern.getD i '?') ≠ 0) ∧
    sequence_matches_consensus_bytes ['A','C','G','T'] ['N','C','G','T'] = true ∧
    sequence_matches_consensus_bytes ['A','C','G','T'] ['R','C','G','T'] = true ∧
    sequence_matches_consensus_bytes ['A','C','G','T'] ['Y','C','G','T'] = false ∧
    sequence_matches_consensus_bytes ['A','C','G'] ['A','C','G','T'] = false := by
  refine ⟨?_, by decide, by decide, by decide, by decide⟩
  intro seq pattern
  unfold sequence_matches_consensus_bytes
  rw [Bool.and_eq_true, List.all_eq_true, decide_eq_true_eq]
  constructor
  · rintro ⟨hlen, hall⟩
    refine ⟨hlen, fun i hi => ?_⟩
    have hip : i < pattern.length := by omega
    have hiz : i < (seq.zip pattern).length := by
      rw [List.length_zip]; omega
    have hz : (seq[i], pattern[i]) ∈ seq.zip pattern := by
      have := List.getElem_mem hiz
      rwa [List.getElem_zip] at this
    have := hall _ hz
    rw [List.getD_eq_getElem seq '?' hi, List.getD_eq_getElem pattern '?' hip]
    simpa using this
  · rintro ⟨hlen, hidx⟩
    refine ⟨hlen, fun sc hsc => ?_⟩
    simp only [ne_eq, bne_iff_ne]
    obtain ⟨i, hiz, heq⟩ := List.mem_iff_getElem.mp hsc
    have hlt : i < seq.length := by
      rw [List.length_zip] at hiz; omega
    have hip : i < pattern.length := by
      rw [List.length_zip] at hiz; omega
    have := hidx i hlt
    rw [List.getD_eq_getElem seq '?' hlt, List.getD_eq_getElem pattern '?' hip] at this
    rw [← heq, List.getElem_zip]
    exact this

/-! ### Theorems: claim C6 (local oligo match classification) -/

/-- C6: a reference is counted as "no match" exactly when its local
alignment has an insertion/deletion operation, or does not cover the full
oligo, or has more than `max_mismatches` substitutions; every accepted
reference contributes `reference[ystart..yend]` (in order). -/
theorem c6_collect_matches_classification
    (aligner : DnaSeq → DnaSeq → BioAlignment) (oligo : DnaSeq)
    (references : List DnaSeq) (params : PairwiseParams) :
    (collect_matches aligner oligo references params).2 =
      (references.countP fun reference =>
        let a := aligner oligo reference
        (!(a.xend - a.xstart == oligo.length) ||
          (a.operations.any fun op =>
            op = AlignmentOperation.Del || op = AlignmentOperation.Ins) ||
          decide ((a.operations.countP fun op =>
            decide (op = AlignmentOperation.Subst)) > params.max_mismatches))) ∧
    (collect_matches aligner oligo references params).1 =
      ((references.filter fun reference =>
        let a := aligner oligo reference
        !(!(a.xend - a.xstart == oligo.length) ||
          (a.operations.any fun op =>
            op = AlignmentOperation.Del || op = AlignmentOperation.Ins) ||
          decide ((a.operations.countP fun op =>
            decide (op = AlignmentOperation.Subst)) > params.max_mismatches))).map
        fun reference =>
          let a := aligner oligo reference
          (reference.drop a.ystart).take (a.yend - a.ystart)) := by
  induction references with
  | nil => exact ⟨rfl, rfl⟩
  | cons reference rest ih =>
    obtain ⟨ih2, ih1⟩ := ih
    constructor
    · show (collect_matches aligner oligo (reference :: rest) params).2 = _
      rw [List.countP_cons]
      simp only [collect_matches, process_alignment]
      set a := aligner oligo reference with ha
      by_cases hfc : (a.xend - a.xstart == oligo.length) = true
      · by_cases hg : (a.operations.any fun op =>
            op = AlignmentOperation.Del || op = AlignmentOperation.Ins) = true
        · simp [hfc, hg, ih2, beq_iff_eq.mp hfc]
        · by_cases hm : ((a.operations.countP fun op =>
              decide (op = AlignmentOperation.Subst)) > params.max_mismatches)
          · simp [hfc, hg, hm, ih2, beq_iff_eq.mp hfc]
          · simp [hfc, hg, hm, ih2, beq_iff_eq.mp hfc]
      · have hfc2 : (a.xend - a.xstart = oligo.length) = False := by
          simp only [eq_iff_iff, iff_false]
          exact fun h => hfc (beq_iff_eq.mpr h)
        simp [hfc, ih2, hfc2]
    · show (collect_matches aligner oligo (reference :: rest) params).1 = _
      rw [List.filter_cons]
      simp only [collect_matches, process_alignment]
      set a := aligner oligo reference with ha
      by_cases hfc : (a.xend - a.xstart == oligo.length) = true
      · by_cases hg : (a.operations.any fun op =>
            op = AlignmentOperation.Del || op = AlignmentOperation.Ins) = true
        · simp [hfc, hg, ih1, beq_iff_eq.mp hfc]
        · by_cases hm : ((a.operations.countP fun op =>
              decide (op = AlignmentOperation.Subst)) > params.max_mismatches)
          · simp [hfc, hg, hm, ih1, beq_iff_eq.mp hfc]
          · simp [hfc, hg, hm, ih1, beq_iff_eq.mp hfc]
      · have hfc2 : (a.xend - a.xstart = oligo.length) = False := by
          simp only [eq_iff_iff, iff_false]
          exact fun h => hfc (beq_iff_eq.mpr h)
        simp [hfc, ih1, hfc2]

/-! ### Theorems: claim C5 (window extraction rejects indels / OOB) -/

/-- Failure characterization of the extraction loop. -/
theorem windowChars_eq_none_iff (pm : List (Option Nat)) (target : DnaSeq) :
    ∀ (n tPos : Nat),
      windowChars pm target tPos n = none ↔
        ∃ i, i < n ∧
          (pm.length ≤ tPos + i ∨
           pm[tPos + i]? = some none ∨
           ∃ j, pm[tPos + i]? = some (some j) ∧ target.length ≤ j) := by
  intro n
  induction n with
  | zero => intro tPos; simp [windowChars]
  | succ n ih =>
    intro tPos
    rw [windowChars]
    split
    · next hpm =>
      refine iff_of_true rfl ⟨0, by omega, Or.inl ?_⟩
      have := List.getElem?_eq_none_iff.mp hpm
      omega
    · next hpm =>
      exact iff_of_true rfl
        ⟨0, by omega, Or.inr (Or.inl (by rw [Nat.add_zero]; exact hpm))⟩
    · next j hpm =>
      split
      · next htg =>
        refine iff_of_true rfl ⟨0, by omega, Or.inr (Or.inr ⟨j, ?_, ?_⟩)⟩
        · rw [Nat.add_zero]; exact hpm
        · exact List.getElem?_eq_none_iff.mp htg
      · next c htg =>
        rw [Option.map_eq_none', ih (tPos + 1)]
        constructor
        · rintro ⟨i, hi, hbad⟩
          refine ⟨i + 1, by omega, ?_⟩
          rw [show tPos + (i + 1) = tPos + 1 + i from by omega]
          exact hbad
        · rintro ⟨i, hi, hbad⟩
          cases i with
          | zero =>
            exfalso
            rw [Nat.add_zero] at hbad
            rcases hbad with h | h | ⟨j2, hj2, hj2b⟩
            · obtain ⟨hlt, _⟩ := List.getElem?_eq_some_iff.mp hpm
              omega
            · rw [hpm] at h
              simp at h
            · rw [hpm] at hj2
              have hj3 : j = j2 := Option.some.inj (Option.some.inj hj2)
              obtain ⟨hlt2, _⟩ := List.getElem?_eq_some_iff.mp htg
              omega
          | succ i2 =>
            refine ⟨i2, by omega, ?_⟩
            rw [show tPos + 1 + i2 = tPos + (i2 + 1) from by omega]
            exact hbad

/-- Success characterization of the extraction loop: the window has the
requested length and every character is read from the mapped target
position. -/
theorem windowChars_eq_some (pm : List (Option Nat)) (target : DnaSeq) :
    ∀ (n tPos : Nat) (w : DnaSeq),
      windowChars pm target tPos n = some w →
        w.length = n ∧
        ∀ i, i < n → ∃ j c, pm[tPos + i]? = some (some j) ∧
          target[j]? = some c ∧ w[i]? = some c := by
  intro n
  induction n with
  | zero =>
    intro tPos w hw
    simp [windowChars] at hw
    subst hw
    exact ⟨rfl, by omega⟩
  | succ n ih =>
    intro tPos w hw
    rw [windowChars] at hw
    split at hw
    · exact Option.noConfusion hw
    · exact Option.noConfusion hw
    · next j hpm =>
      split at hw
      · exact Option.noConfusion hw
      · next c htg =>
        cases hrec : windowChars pm target (tPos + 1) n with
        | none => rw [hrec] at hw; exact Option.noConfusion hw
        | some r =>
          rw [hrec] at hw
          have hwr : w = c :: r := (Option.some.inj hw).symm
          subst hwr
          obtain ⟨hlen, hall⟩ := ih (tPos + 1) r hrec
          refine ⟨by simpa using hlen, fun i hi => ?_⟩
          cases i with
          | zero =>
            exact ⟨j, c, by simpa using hpm, htg, by simp⟩
          | succ i2 =>
            obtain ⟨j2, c2, h1, h2, h3⟩ := hall i2 (by omega)
            refine ⟨j2, c2, ?_, h2, by simpa using h3⟩
            rw [show tPos + (i2 + 1) = tPos + 1 + i2 from by omega]
            exact h1

/-- C5: `PositionMap::extract_window` returns `None` exactly when some
covered template position falls off the position map, maps to a deletion,
or maps out of the target's bounds; a returned window has the requested
length and every character is read from the target at the mapped position
(never a gap character fabricated by the extraction). -/
theorem c5_extract_window (pm : PositionMap) (target : DnaSeq)
    (templateStart windowLength : Nat) :
    (pm.extract_window target templateStart windowLength = none ↔
      ∃ i, i < windowLength ∧
        (pm.template_to_target.length ≤ templateStart + i ∨
         pm.template_to_target[templateStart + i]? = some none ∨
         ∃ j, pm.template_to_target[templateStart + i]? = some (some j) ∧
           target.length ≤ j)) ∧
    (∀ w, pm.extract_window target templateStart windowLength = some w →
      w.length = windowLength ∧
      ∀ i, i < windowLength → ∃ j c,
        pm.template_to_target[templateStart + i]? = some (some j) ∧
        target[j]? = some c ∧ w[i]? = some c) := by
  constructor
  · rw [PositionMap.extract_window]
    cases hwc : windowChars pm.template_to_target target templateStart windowLength with
    | none =>
      exact iff_of_true rfl
        ((windowChars_eq_none_iff pm.template_to_target target windowLength
          templateStart).mp hwc)
    | some r =>
      have hlen := (windowChars_eq_some pm.template_to_target target windowLength
        templateStart r hwc).1
      show (if r.length ≠ windowLength then none else some r) = none ↔ _
      rw [if_neg (by simp [hlen])]
      constructor
      · intro h
        exact Option.noConfusion h
      · intro h
        exfalso
        have := (windowChars_eq_none_iff pm.template_to_target target windowLength
          templateStart).mpr h
        rw [hwc] at this
        exact Option.noConfusion this
  · intro w hw
    rw [PositionMap.extract_window] at hw
    cases hwc : windowChars pm.template_to_target target templateStart windowLength with
    | none => rw [hwc] at hw; exact Option.noConfusion hw
    | some r =>
      rw [hwc] at hw
      have hw2 : (if r.length ≠ windowLength then none else some r) = some w := hw
      by_cases hl : r.length ≠ windowLength
      · rw [if_pos hl] at hw2; exact Option.noConfusion hw2
      · rw [if_neg hl] at hw2
        have hwr : r = w := Option.some.inj hw2
        subst hwr
        exact windowChars_eq_some pm.template_to_target target windowLength
          templateStart r hwc

/-! ### Theorems: claim C2 (threshold coverage scan) -/

/-- Full characterization of the scan loop: it consumes some prefix of
length `k`, returns the accumulated value, every earlier nonempty prefix
was still below the threshold, and it stops either by reaching the
threshold or by exhausting the list. -/
theorem thresholdGo_spec (threshold : ℚ) :
    ∀ (vs : List Variant) (consumed : Nat) (cum : ℚ),
      ∃ k, k ≤ vs.length ∧
        thresholdGo threshold vs consumed cum =
          (consumed + k, cum + ((vs.take k).map fun v => v.percentage).sum) ∧
        (∀ j, 1 ≤ j → j < k →
          cum + ((vs.take j).map fun v => v.percentage).sum < threshold) ∧
        ((1 ≤ k ∧ cum + ((vs.take k).map fun v => v.percentage).sum ≥ threshold) ∨
         (k = vs.length ∧
           cum + ((vs.take k).map fun v => v.percentage).sum < threshold) ∨
         (k = 0 ∧ vs = [])) := by
  intro vs
  induction vs with
  | nil =>
    intro consumed cum
    exact ⟨0, by simp, by simp [thresholdGo], by omega, Or.inr (Or.inr ⟨rfl, rfl⟩)⟩
  | cons v rest ih =>
    intro consumed cum
    rw [thresholdGo]
    by_cases hth : cum + v.percentage ≥ threshold
    · refine ⟨1, by simp, ?_, by omega, Or.inl ⟨le_refl 1, ?_⟩⟩
      · rw [if_pos hth]
        simp [add_comm]
      · simpa using hth
    · rw [if_neg hth]
      obtain ⟨k2, hk2len, hk2eq, hk2pre, hk2disj⟩ := ih (consumed + 1) (cum + v.percentage)
      refine ⟨k2 + 1, by simp; omega, ?_, ?_, ?_⟩
      · rw [hk2eq]
        have : ((((v :: rest).take (k2 + 1)).map fun v => v.percentage)).sum =
            v.percentage + ((rest.take k2).map fun v => v.percentage).sum := by
          rw [List.take_succ_cons]
          simp
        rw [this]
        refine Prod.ext (by simp; omega) ?_
        simp [add_assoc]
      · intro j hj1 hjk
        cases j with
        | zero => omega
        | succ j2 =>
          rw [List.take_succ_cons]
          simp only [List.map_cons, List.sum_cons]
          rw [show cum + (v.percentage + ((rest.take j2).map fun v => v.percentage).sum) =
            cum + v.percentage + ((rest.take j2).map fun v => v.percentage).sum from by ring]
          cases Nat.eq_zero_or_pos j2 with
          | inl hz =>
            subst hz
            simpa using lt_of_not_ge hth
          | inr hpos => exact hk2pre j2 hpos (by omega)
      · have hsum : (((v :: rest).take (k2 + 1)).map fun v => v.percentage).sum =
            v.percentage + ((rest.take k2).map fun v => v.percentage).sum := by
          rw [List.take_succ_cons]; simp
        rcases hk2disj with ⟨hk1, hge⟩ | ⟨hlen, hlt⟩ | ⟨hk0, hrest⟩
        · refine Or.inl ⟨by omega, ?_⟩
          rw [hsum, show cum + (v.percentage + ((rest.take k2).map fun v => v.percentage).sum) =
            cum + v.percentage + ((rest.take k2).map fun v => v.percentage).sum from by ring]
          exact hge
        · refine Or.inr (Or.inl ⟨by simp [hlen], ?_⟩)
          rw [hsum, show cum + (v.percentage + ((rest.take k2).map fun v => v.percentage).sum) =
            cum + v.percentage + ((rest.take k2).map fun v => v.percentage).sum from by ring]
          exact hlt
        · subst hrest
          refine Or.inr (Or.inl ⟨by simp [hk0], ?_⟩)
          subst hk0
          simpa using lt_of_not_ge hth

/-- C2 counterexample: with `total = 0` the function short-circuits to
`(0, 0)` even though the claimed scan over `[50]` with threshold 30 would
consume 1 variant and report coverage 50 (the first prefix already meets
the threshold). -/
theorem c2_counterexample :
    calculate_variants_for_threshold [⟨['A'], 50, 50⟩] 0 30 = (0, 0) ∧
    ((0 : Nat), (0 : ℚ)) ≠ ((1 : Nat), (50 : ℚ)) ∧
    (((([(⟨['A'], 50, 50⟩ : Variant)]).take 1).map fun v => v.percentage).sum ≥ 30) := by
  refine ⟨?_, ?_, ?_⟩
  · rw [calculate_variants_for_threshold, if_pos (Or.inr rfl)]
  · intro h
    exact absurd (congrArg Prod.fst h) (by norm_num)
  · norm_num

/-- C2 amended: provided `total ≠ 0`, the scan accumulates `percentage`
fields in order and stops the first time the cumulative value reaches the
threshold, returning the consumed count and cumulative value; if the list
is exhausted first it returns the full length and the reached coverage
(and an empty list yields `(0, 0)`); `[50,30,20]` at threshold 80 gives
`(2, 80)`.  (When `total = 0` the source instead short-circuits to
`(0, 0)` — see the counterexample.) -/
theorem c2_threshold_scan (variants : List Variant) (total : Nat)
    (threshold : ℚ) (htotal : total ≠ 0) :
    (variants = [] → calculate_variants_for_threshold variants total threshold = (0, 0)) ∧
    (variants ≠ [] →
      1 ≤ (calculate_variants_for_threshold variants total threshold).1 ∧
      (calculate_variants_for_threshold variants total threshold).1 ≤ variants.length ∧
      (calculate_variants_for_threshold variants total threshold).2 =
        ((variants.take (calculate_variants_for_threshold variants total threshold).1).map
          fun v => v.percentage).sum ∧
      (((variants.take (calculate_variants_for_threshold variants total threshold).1).map
          fun v => v.percentage).sum ≥ threshold ∨
        (calculate_variants_for_threshold variants total threshold).1 = variants.length) ∧
      (∀ j, 1 ≤ j → j < (calculate_variants_for_threshold variants total threshold).1 →
        ((variants.take j).map fun v => v.percentage).sum < threshold)) ∧
    calculate_variants_for_threshold
      [⟨['A'], 50, 50⟩, ⟨['B'], 30, 30⟩, ⟨['C'], 20, 20⟩] 100 80 = (2, 80) := by
  refine ⟨?_, ?_, ?_⟩
  · intro hv
    subst hv
    simp [calculate_variants_for_threshold]
  · intro hv
    obtain ⟨k, hklen, hkeq, hkpre, hkdisj⟩ := thresholdGo_spec threshold variants 0 0
    have hk1 : 1 ≤ k := by
      rcases hkdisj with ⟨h1, _⟩ | ⟨hlen, _⟩ | ⟨_, hnil⟩
      · exact h1
      · rw [hlen]
        exact List.length_pos.mpr hv
      · exact absurd hnil hv
    have hr : calculate_variants_for_threshold variants total threshold =
        (k, ((variants.take k).map fun v => v.percentage).sum) := by
      rw [calculate_variants_for_threshold, if_neg (by simp [hv, htotal]), hkeq]
      exact Prod.ext (by simp) (by simp)
    rw [hr]
    refine ⟨hk1, hklen, rfl, ?_, ?_⟩
    · rcases hkdisj with ⟨_, hge⟩ | ⟨hlen, _⟩ | ⟨_, hnil⟩
      · exact Or.inl (by simpa using hge)
      · exact Or.inr hlen
      · exact absurd hnil hv
    · intro j hj1 hjk
      simpa using hkpre j hj1 hjk
  · rw [calculate_variants_for_threshold, if_neg (by simp)]
    norm_num [thresholdGo]

/-- C2 witness: the amended theorem applied at the `[50,30,20]`,
`total = 100`, threshold-80 instance. -/
theorem c2_threshold_scan_witness :
    ((100 : Nat) ≠ 0) ∧
    calculate_variants_for_threshold
      [⟨['A'], 50, 50⟩, ⟨['B'], 30, 30⟩, ⟨['C'], 20, 20⟩] 100 80 = (2, 80) :=
  ⟨by decide,
    (c2_threshold_scan [⟨['A'], 50, 50⟩, ⟨['B'], 30, 30⟩, ⟨['C'], 20, 20⟩]
      100 80 (by decide)).2.2⟩

/-! ### Theorems: claim C7 (exact method) -/

/-- Distributing the division/scaling over a list sum. -/
theorem sum_map_div_mul {α : Type} (g : α → ℚ) (L : ℚ) :
    ∀ l : List α, (l.map fun x => g x / L * 100).sum = (l.map g).sum / L * 100 := by
  intro l
  induction l with
  | nil => simp
  | cons a t ih =>
    simp only [List.map_cons, List.sum_cons, ih]
    ring

/-- Casting a sum of naturals into `ℚ`. -/
theorem sum_map_natCast {α : Type} (f : α → ℕ) :
    ∀ l : List α, (l.map fun x => ((f x : ℚ))).sum = (((l.map f).sum : ℕ) : ℚ) := by
  intro l
  induction l with
  | nil => simp
  | cons a t ih =>
    simp only [List.map_cons, List.sum_cons, ih]
    push_cast
    ring

/-- Sums of pointwise

 sums of natural-valued maps split. -/
theorem sum_map_add_nat {α : Type} (f g : α → ℕ) :
    ∀ l : List α, (l.map fun x => f x + g x).sum = (l.map f).sum + (l.map g).sum := by
  intro l
  induction l with
  | nil => simp
  | cons a t ih =>
    simp only [List.map_cons, List.sum_cons, ih]
    omega

/-- Summing the indicator of one element over a duplicate-free list that
contains it gives exactly 1. -/
theorem sum_map_ite_one (a : DnaSeq) :
    ∀ d : List DnaSeq, d.Nodup → a ∈ d →
      (d.map fun s => if a == s then 1 else 0).sum = 1 := by
  intro d
  induction d with
  | nil => intro _ h; exact absurd h (List.not_mem_nil a)
  | cons b t ih =>
    intro hnd hmem
    simp only [List.map_cons, List.sum_cons]
    by_cases hba : b = a
    · subst hba
      have hnotin : b ∉ t := (List.nodup_cons.mp hnd).1
      have hz : (t.map fun s => if b == s then 1 else 0).sum = 0 := by
        rw [List.sum_eq_zero]
        intro x hx
        obtain ⟨s, hs, hxs⟩ := List.mem_map.mp hx
        rw [← hxs, if_neg (by simp; rintro rfl; exact hnotin hs)]
      rw [if_pos (by simp), hz]
    · have hmem2 : a ∈ t := by
        rcases List.mem_cons.mp hmem with h | h
        · exact absurd h.symm hba
        · exact h
      rw [ih (List.nodup_cons.mp hnd).2 hmem2,
        if_neg (by simp; exact fun h => hba h.symm)]

/-- Summing the indicator of an absent element gives 0. -/
theorem sum_map_ite_zero (a : DnaSeq) :
    ∀ d : List DnaSeq, a ∉ d →
      (d.map fun s => if a == s then 1 else 0).sum = 0 := by
  intro d hnotin
  rw [List.sum_eq_zero]
  intro x hx
  obtain ⟨s, hs, hxs⟩ := List.mem_map.mp hx
  rw [← hxs, if_neg (by simp; rintro rfl; exact hnotin hs)]

/-- The multiplicities of the distinct elements sum to the length. -/
theorem sum_map_count_dedup_self :
    ∀ l : List DnaSeq, ((l.dedup.map fun s => l.count s).sum) = l.length := by
  intro l
  induction l with
  | nil => simp
  | cons a t ih =>
    have hcc : ∀ d : List DnaSeq, (d.map fun s => (a :: t).count s) =
        d.map fun s => t.count s + if a == s then 1 else 0 := by
      intro d
      apply List.map_congr_left
      intro s _
      rw [List.count_cons]
    by_cases hmem : a ∈ t
    · rw [List.dedup_cons_of_mem hmem, hcc, sum_map_add_nat,
        sum_map_ite_one a t.dedup t.nodup_dedup (List.mem_dedup.mpr hmem), ih]
      simp
    · rw [List.dedup_cons_of_not_mem hmem, List.map_cons, List.sum_cons, hcc,
        sum_map_add_nat, sum_map_ite_zero a t.dedup (fun hx => hmem (List.mem_dedup.mp hx)),
        ih, List.count_cons]
      have hz : t.count a = 0 := by
        rw [List.count_eq_zero]
        exact hmem
      simp [hz]
      omega

/-- C7: the exact method emits one `Variant` per distinct sequence whose
count is that sequence's multiplicity, sorted by count descending, with
`percentage = count / total * 100`, and the percentages sum to 100; on
`["ACGT","ACGT","ACGA","ACGA","ACGA"]` it yields exactly
`[("ACGA", 3), ("ACGT", 2)]`. -/
theorem c7_exact_method (seqs : List DnaSeq) (h : seqs ≠ []) :
    ((find_variants_no_ambiguities seqs).map fun v => (v.sequence, v.count)).Perm
      (seqs.dedup.map fun s => (s, seqs.count s)) ∧
    (find_variants_no_ambiguities seqs).Sorted (fun a b => b.count ≤ a.count) ∧
    (∀ v ∈ find_variants_no_ambiguities seqs,
      v.percentage = (v.count : ℚ) / (seqs.length : ℚ) * 100) ∧
    ((find_variants_no_ambiguities seqs).map fun v => v.percentage).sum = 100 ∧
    ((find_variants_no_ambiguities
        [['A','C','G','T'], ['A','C','G','T'], ['A','C','G','A'], ['A','C','G','A'],
          ['A','C','G','A']]).map fun v => (v.sequence, v.count)) =
      [(['A','C','G','A'], 3), (['A','C','G','T'], 2)] := by
  have hL : ((seqs.length : ℚ)) ≠ 0 := by
    have h0 : seqs.length ≠ 0 := by
      intro hz
      exact h (List.length_eq_zero.mp hz)
    exact_mod_cast h0
  haveI htot : IsTotal Variant (fun a b => b.count ≤ a.count) :=
    ⟨fun a b => le_total b.count a.count⟩
  haveI htrans : IsTrans Variant (fun a b => b.count ≤ a.count) :=
    ⟨fun _ _ _ hab hbc => le_trans hbc hab⟩
  have hperm : (find_variants_no_ambiguities seqs).Perm
      (seqs.dedup.map fun s =>
        ({ sequence := s, count := seqs.count s,
           percentage := (seqs.count s : ℚ) / (seqs.length : ℚ) * 100 } : Variant)) := by
    rw [find_variants_no_ambiguities]
    exact List.perm_insertionSort _ _
  refine ⟨?_, ?_, ?_, ?_, by decide⟩
  · have := hperm.map fun v : Variant => (v.sequence, v.count)
    rw [List.map_map] at this
    exact this
  · rw [find_variants_no_ambiguities]
    exact List.sorted_insertionSort _ _
  · intro v hv
    have hv2 := hperm.mem_iff.mp hv
    obtain ⟨s, _, hs⟩ := List.mem_map.mp hv2
    rw [← hs]
  · rw [hperm.map (fun v => v.percentage) |>.sum_eq, List.map_map]
    have heq : ((fun v : Variant => v.percentage) ∘ fun s =>
        ({ sequence := s, count := seqs.count s,
           percentage := (seqs.count s : ℚ) / (seqs.length : ℚ) * 100 } : Variant)) =
        fun s => ((seqs.count s : ℚ)) / (seqs.length : ℚ) * 100 := rfl
    rw [heq, sum_map_div_mul (fun s => ((seqs.count s : ℚ))) (seqs.length : ℚ),
      sum_map_natCast (fun s => seqs.count s), sum_map_count_dedup_self]
    field_simp

/-! ### Theorems: claim C1 (window exclusion policy) -/

/-- A nonempty input is never skipped by `analyze_sequences`. -/
theorem analyze_sequences_skipped_eq_false (sequences : List DnaSeq)
    (method : AnalysisMethod) (excludeN : Bool) (th : ℚ)
    (h : sequences ≠ []) :
    (analyze_sequences sequences method excludeN th).skipped = false := by
  rw [analyze_sequences.eq_def, if_neg h]

/-- The skip condition of `analyze_window`, in full: the window is skipped
exactly when it is empty, the gap fraction alone exceeds 20%, the
ambiguous fraction alone exceeds 20%, or no sequence survives filtering. -/
theorem analyze_window_skipped_iff (data : AlignmentData) (params : AnalysisParams)
    (position length : Nat) :
    (analyze_window data params position length).skipped = true ↔
      (Fasta.extract_window data position length = [] ∨
       ((filter_window_sequences (Fasta.extract_window data position length)).2.1 : ℚ) /
         ((Fasta.extract_window data position length).length : ℚ) * 100 >
         MAX_EXCLUDED_PERCENTAGE ∨
       ((filter_window_sequences (Fasta.extract_window data position length)).2.2 : ℚ) /
         ((Fasta.extract_window data position length).length : ℚ) * 100 >
         MAX_EXCLUDED_PERCENTAGE ∨
       (filter_window_sequences (Fasta.extract_window data position length)).1 = []) := by
  simp only [analyze_window]
  split_ifs with h1 h2 h3 h4
  · exact iff_of_true (by trivial) (Or.inl (List.length_eq_zero.mp h1))
  · exact iff_of_true (by trivial) (Or.inr (Or.inl h2))
  · exact iff_of_true (by trivial) (Or.inr (Or.inr (Or.inl h3)))
  · exact iff_of_true (by trivial) (Or.inr (Or.inr (Or.inr h4)))
  · have hsk : (analyze_sequences
        (filter_window_sequences (Fasta.extract_window data position length)).1
        params.method params.exclude_n params.coverage_threshold).skipped = false :=
      analyze_sequences_skipped_eq_false _ _ _ _ h4
    constructor
    · intro hcontra
      have hcontra2 : (analyze_sequences
          (filter_window_sequences (Fasta.extract_window data position length)).1
          params.method params.exclude_n params.coverage_threshold).skipped = true :=
        hcontra
      rw [hsk] at hcontra2
      exact Bool.noConfusion hcontra2
    · intro hrhs
      exfalso
      rcases hrhs with he | hg | ha | hf
      · exact h1 (by rw [he]; rfl)
      · exact h2 hg
      · exact h3 ha
      · exact h4 hf

/-- C1 (amended): the cell is skipped iff the gap fraction alone exceeds
20%, the ambiguous fraction alone exceeds 20%, there are no windows, or no
window survives filtering.  The two excluded classes are each compared to
the 20% bound separately (strictly above skips; exactly 20% does not), not
summed — see `c1_counterexample` for a window whose combined excluded
fraction is 40% yet is analyzed. -/
theorem c1_skipped_iff (data : AlignmentData) (params : AnalysisParams)
    (position length : Nat) :
    (analyze_window data params position length).skipped = true ↔
      (Fasta.extract_window data position length = [] ∨
       ((filter_window_sequences (Fasta.extract_window data position length)).2.1 : ℚ) /
         ((Fasta.extract_window data position length).length : ℚ) * 100 >
         MAX_EXCLUDED_PERCENTAGE ∨
       ((filter_window_sequences (Fasta.extract_window data position length)).2.2 : ℚ) /
         ((Fasta.extract_window data position length).length : ℚ) * 100 >
         MAX_EXCLUDED_PERCENTAGE ∨
       (filter_window_sequences (Fasta.extract_window data position length)).1 = []) :=
  analyze_window_skipped_iff data params position length

/-- Ten aligned sequences: six clean `ACGT`, two gapped, two ambiguous. -/
def c1Data : AlignmentData :=
  { sequences :=
      [['A','C','G','T'], ['A','C','G','T'], ['A','C','G','T'], ['A','C','G','T'],
       ['A','C','G','T'], ['A','C','G','T'], ['A','-','G','T'], ['A','-','G','T'],
       ['A','N','G','T'], ['A','N','G','T']]
    names := []
    alignment_length := 4 }

/-- Parameters: exact method, window length 4. -/
def c1Params : AnalysisParams :=
  { method := AnalysisMethod.NoAmbiguities
    exclude_n := false
    min_oligo_length := 4
    max_oligo_length := 4
    resolution := 1
    coverage_threshold := 95 }

/-- C1 counterexample: at this window 2 of 10 sequences are gapped and 2
of 10 are ambiguous — a combined excluded fraction of 40% > 20% — yet the
cell is *not* skipped, because the source compares each class separately
against the 20% bound. -/
theorem c1_counterexample :
    (filter_window_sequences (Fasta.extract_window c1Data 0 4)).2.1 = 2 ∧
    (filter_window_sequences (Fasta.extract_window c1Data 0 4)).2.2 = 2 ∧
    (Fasta.extract_window c1Data 0 4).length = 10 ∧
    (((2 : ℚ) + 2) / 10) * 100 > 20 ∧
    (analyze_window c1Data c1Params 0 4).skipped = false := by
  refine ⟨by decide, by decide, by decide, by norm_num, ?_⟩
  have h := analyze_window_skipped_iff c1Data c1Params 0 4
  cases hsk : (analyze_window c1Data c1Params 0 4).skipped with
  | false => rfl
  | true =>
    exfalso
    rcases h.mp hsk with he | hg | ha | hf
    · exact absurd he (by decide)
    · rw [show (filter_window_sequences (Fasta.extract_window c1Data 0 4)).2.1 = 2
        from by decide, show (Fasta.extract_window c1Data 0 4).length = 10
        from by decide] at hg
      rw [MAX_EXCLUDED_PERCENTAGE] at hg
      norm_num at hg
    · rw [show (filter_window_sequences (Fasta.extract_window c1Data 0 4)).2.2 = 2
        from by decide, show (Fasta.extract_window c1Data 0 4).length = 10
        from by decide] at ha
      rw [MAX_EXCLUDED_PERCENTAGE] at ha
      norm_num at ha
    · exact absurd hf (by decide)

/-! ### Mask-level facts (all masks are 4-bit values) -/

/-- `base_to_bit` always lands below 16. -/
theorem base_to_bit_lt16 (c : Char) : base_to_bit c < 16 := by
  unfold base_to_bit
  split <;> norm_num

/-- A standard base has a one-bit, nonzero mask. -/
theorem base_to_bit_standard (c : Char) (h : is_standard_base c = true) :
    countOnes (base_to_bit c) = 1 ∧ base_to_bit c ≠ 0 := by
  have h4 : c = 'A' ∨ c = 'C' ∨ c = 'G' ∨ c = 'T' := by
    simpa [is_standard_base, or_assoc] using h
  rcases h4 with rfl | rfl | rfl | rfl <;> exact ⟨rfl, by decide⟩

/-- Bounded facts about 4-bit masks, proved by enumeration. -/
theorem mask_or_facts : ∀ a ∈ List.range 16, ∀ b ∈ List.range 16,
    a ||| b < 16 ∧ (a ||| b = b → a &&& b = a) ∧ a ||| (a ||| b) = a ||| b ∧
    (a ||| b) ||| b = a ||| b ∧ a ||| a = a ∧ a ||| (b ||| (a ||| b)) = b ||| (a ||| b) := by
  decide

/-- Bounded round-trip: for any 4-bit mask the IUPAC code maps back to the
same mask (index 0 gives `?`, whose mask is 0). -/
theorem mask_roundtrip_facts : ∀ m ∈ List.range 16,
    base_to_bit (iupac_from_mask m) = m ∧
    (is_ambiguous_base (iupac_from_mask m) = true ↔ countOnes m > 1) ∧
    (iupac_from_mask m = 'N' ↔ m = 15) := by decide

/-- `a ||| b < 16` for 4-bit masks. -/
theorem mask_or_lt16 {a b : Nat} (ha : a < 16) (hb : b < 16) : a ||| b < 16 :=
  (mask_or_facts a (List.mem_range.mpr ha) b (List.mem_range.mpr hb)).1

/-- If `a`'s bits are inside `b` then `a &&& b = a`. -/
theorem mask_and_of_le {a b : Nat} (ha : a < 16) (hb : b < 16)
    (h : a ||| b = b) : a &&& b = a :=
  (mask_or_facts a (List.mem_range.mpr ha) b (List.mem_range.mpr hb)).2.1 h

/-- Round-trip through the code table for 4-bit masks. -/
theorem base_to_bit_iupac {m : Nat} (hm : m < 16) :
    base_to_bit (iupac_from_mask m) = m :=
  (mask_roundtrip_facts m (List.mem_range.mpr hm)).1

/-- A code-table entry is an ambiguity code iff its mask is multi-bit. -/
theorem iupac_ambiguous_iff {m : Nat} (hm : m < 16) :
    is_ambiguous_base (iupac_from_mask m) = true ↔ countOnes m > 1 :=
  (mask_roundtrip_facts m (List.mem_range.mpr hm)).2.1

/-- A code-table entry is `N` iff its mask is the full set 15. -/
theorem iupac_eq_N_iff {m : Nat} (hm : m < 16) :
    iupac_from_mask m = 'N' ↔ m = 15 :=
  (mask_roundtrip_facts m (List.mem_range.mpr hm)).2.2

/-- `orMask` preserves length. -/
theorem orMask_length : ∀ (gm : List Nat) (other : DnaSeq),
    (orMask gm other).length = gm.length := by
  intro gm
  induction gm with
  | nil => intro other; cases other <;> rfl
  | cons m ms ih =>
    intro other
    cases other with
    | nil => simpa [orMask] using ih []
    | cons c cs => simpa [orMask] using ih cs

/-- `orMask` keeps every entry below 16. -/
theorem orMask_lt16 : ∀ (gm : List Nat) (other : DnaSeq),
    (∀ x ∈ gm, x < 16) → ∀ x ∈ orMask gm other, x < 16 := by
  intro gm
  induction gm with
  | nil => intro other _ x hx; cases other <;> simp [orMask] at hx
  | cons m ms ih =>
    intro other hgm x hx
    cases other with
    | nil =>
      rcases List.mem_cons.mp hx with rfl | hx2
      · exact hgm _ (List.mem_cons_self _ _)
      · exact ih [] (fun y hy => hgm y (List.mem_cons_of_mem _ hy)) x hx2
    | cons c cs =>
      rcases List.mem_cons.mp hx with rfl | hx2
      · exact mask_or_lt16 (hgm _ (List.mem_cons_self _ _)) (base_to_bit_lt16 c)
      · exact ih cs (fun y hy => hgm y (List.mem_cons_of_mem _ hy)) x hx2

/-- Pointwise bit containment of mask arrays: `m1[i] ||| m2[i] = m2[i]`. -/
def maskListLE (m1 m2 : List Nat) : Prop :=
  m1.length = m2.length ∧ ∀ i, m1.getD i 0 ||| m2.getD i 0 = m2.getD i 0

/-- Containment is reflexive. -/
theorem maskListLE_refl (m : List Nat) (hm : ∀ x ∈ m, x < 16) : maskListLE m m := by
  refine ⟨rfl, fun i => ?_⟩
  by_cases hi : i < m.length
  · have hx : m.getD i 0 ∈ m := by
      rw [List.getD_eq_getElem m 0 hi]
      exact List.getElem_mem hi
    have h16 : m.getD i 0 < 16 := hm _ hx
    exact (mask_or_facts (m.getD i 0) (List.mem_range.mpr h16) (m.getD i 0)
      (List.mem_range.mpr h16)).2.2.2.2.1
  · rw [List.getD_eq_default _ _ (by omega)]
    simp

/-- Entries read through `getD` stay below 16. -/
theorem getD_lt16 {m : List Nat} (hm : ∀ x ∈ m, x < 16) (i : Nat) : m.getD i 0 < 16 := by
  by_cases hi : i < m.length
  · rw [List.getD_eq_getElem m 0 hi]
    exact hm _ (List.getElem_mem hi)
  · rw [List.getD_eq_default _ _ (by omega)]
    norm_num

/-- Bit containment is transitive on 4-bit masks (enumeration). -/
theorem mask_or_trans_facts : ∀ a ∈ List.range 16, ∀ b ∈ List.range 16,
    ∀ c ∈ List.range 16, a ||| b = b → b ||| c = c → a ||| c = c := by decide

/-- Containment of mask arrays is transitive. -/
theorem maskListLE_trans {a b c : List Nat} (ha : ∀ x ∈ a, x < 16)
    (hb : ∀ x ∈ b, x < 16) (hc : ∀ x ∈ c, x < 16) :
    maskListLE a b → maskListLE b c → maskListLE a c := by
  rintro ⟨hab, h1⟩ ⟨hbc, h2⟩
  refine ⟨hab.trans hbc, fun i => ?_⟩
  exact mask_or_trans_facts _ (List.mem_range.mpr (getD_lt16 ha i)) _
    (List.mem_range.mpr (getD_lt16 hb i)) _ (List.mem_range.mpr (getD_lt16 hc i))
    (h1 i) (h2 i)

/-- Entry `i` of a merged mask is the bitwise or of the entries. -/
theorem orMask_getD : ∀ (gm : List Nat) (other : DnaSeq) (i : Nat), i < gm.length →
    (orMask gm other).getD i 0 = gm.getD i 0 ||| base_to_bit (other.getD i '?') := by
  intro gm
  induction gm with
  | nil => intro other i hi; simp at hi
  | cons m ms ih =>
    intro other i hi
    cases other with
    | nil =>
      cases i with
      | zero => simp [orMask, base_to_bit, Nat.or_zero]
      | succ j =>
        have := ih [] j (by simpa using hi)
        simpa [orMask] using this
    | cons ch cs =>
      cases i with
      | zero => simp [orMask]
      | succ j =>
        have := ih cs j (by simpa using hi)
        simpa [orMask] using this

/-- A mask array is contained in its merge with any sequence. -/
theorem maskListLE_orMask (gm : List Nat) (other : DnaSeq)
    (hgm : ∀ x ∈ gm, x < 16) : maskListLE gm (orMask gm other) := by
  refine ⟨(orMask_length gm other).symm, fun i => ?_⟩
  by_cases hi : i < gm.length
  · rw [orMask_getD gm other i hi]
    exact (mask_or_facts _ (List.mem_range.mpr (getD_lt16 hgm i)) _
      (List.mem_range.mpr (base_to_bit_lt16 _))).2.2.1
  · rw [List.getD_eq_default _ _ (by omega),
      List.getD_eq_default _ _ (by rw [orMask_length]; omega)]
    exact Nat.or_zero 0

/-- One step of the candidate fold. -/
theorem foldCandidates_cons (excludeN : Bool) (maxAmb : Nat) (seed other : DnaSeq)
    (rest : List DnaSeq) (gm : List Nat) :
    foldCandidates excludeN maxAmb seed (other :: rest) gm =
      foldCandidates excludeN maxAmb seed rest
        (if other = seed then gm
         else if trialScan excludeN maxAmb (orMask gm other) 0 then orMask gm other
         else gm) := by
  rw [foldCandidates, foldCandidates, List.foldl_cons]

/-- `foldCandidates` only grows the mask, keeps entries below 16, and
keeps the length. -/
theorem foldCandidates_spec (excludeN : Bool) (maxAmb : Nat) (seed : DnaSeq) :
    ∀ (others : List DnaSeq) (gm : List Nat), (∀ x ∈ gm, x < 16) →
      maskListLE gm (foldCandidates excludeN maxAmb seed others gm) ∧
      (∀ x ∈ foldCandidates excludeN maxAmb seed others gm, x < 16) ∧
      (foldCandidates excludeN maxAmb seed others gm).length = gm.length := by
  intro others
  induction others with
  | nil => intro gm hgm; exact ⟨maskListLE_refl gm hgm, hgm, rfl⟩
  | cons other rest ih =>
    intro gm hgm
    rw [foldCandidates_cons]
    by_cases hseed : other = seed
    · rw [if_pos hseed]
      exact ih gm hgm
    · rw [if_neg hseed]
      by_cases htrial : trialScan excludeN maxAmb (orMask gm other) 0 = true
      · rw [if_pos htrial]
        have hlt : ∀ x ∈ orMask gm other, x < 16 := orMask_lt16 gm other hgm
        obtain ⟨hle, hlt2, hlen2⟩ := ih (orMask gm other) hlt
        refine ⟨maskListLE_trans hgm hlt hlt2 (maskListLE_orMask gm other hgm) hle,
          hlt2, by rw [hlen2, orMask_length]⟩
      · rw [if_neg htrial]
        exact ih gm hgm

/-- Number of multi-base (ambiguity) positions of a mask array. -/
def ambCountMask (mask : List Nat) : Nat :=
  (mask.filter fun m => countOnes m > 1).length

/-- A successful trial scan bounds the ambiguity count of the scanned
mask and, under `excludeN`, excludes the full mask 15. -/
theorem trialScan_spec (excludeN : Bool) (maxAmb : Nat) :
    ∀ (l : List Nat) (amb : Nat), amb ≤ maxAmb →
      trialScan excludeN maxAmb l amb = true →
      amb + ambCountMask l ≤ maxAmb ∧ (excludeN = true → 15 ∉ l) := by
  intro l
  induction l with
  | nil =>
    intro amb hamb _
    exact ⟨by simp [ambCountMask]; omega, fun _ => List.not_mem_nil 15⟩
  | cons m rest ih =>
    intro amb hamb h
    rw [trialScan] at h
    by_cases hco : countOnes m > 1
    · rw [if_pos hco] at h
      by_cases hcond : ((excludeN && m == 15) || amb + 1 > maxAmb) = true
      · rw [if_pos hcond] at h
        exact Bool.noConfusion h
      · rw [if_neg hcond] at h
        have hB : amb + 1 ≤ maxAmb := by
          by_contra hgt
          exact hcond (by
            have hx : amb + 1 > maxAmb := by omega
            simp [hx])
        have hA : ¬(excludeN = true ∧ m = 15) := by
          rintro ⟨hex, hm15⟩
          exact hcond (by simp [hex, hm15])
        obtain ⟨hbound, hno15⟩ := ih (amb + 1) hB h
        constructor
        · have hcnt : ambCountMask (m :: rest) = 1 + ambCountMask rest := by
            rw [ambCountMask, List.filter_cons, if_pos (by simpa using hco)]
            simp [ambCountMask]
            omega
          omega
        · intro hex hmem
          rcases List.mem_cons.mp hmem with rfl | hmem2
          · exact hA ⟨hex, rfl⟩
          · exact hno15 hex hmem2
    · rw [if_neg hco] at h
      obtain ⟨hbound, hno15⟩ := ih amb hamb h
      constructor
      · have hcnt : ambCountMask (m :: rest) = ambCountMask rest := by
          rw [ambCountMask, List.filter_cons, if_neg (by simpa using hco)]
          rfl
        omega
      · intro hex hmem
        rcases List.mem_cons.mp hmem with rfl | hmem2
        · exact hco (by decide)
        · exact hno15 hex hmem2

/-- A valid `consensus_from_mask` run returns the full code-mapped mask
and the exact ambiguity count. -/
theorem consensusFromMaskGo_valid (excludeN : Bool) :
    ∀ (l : List Nat) (acc : DnaSeq) (amb : Nat) (c : DnaSeq) (a : Nat),
      consensusFromMaskGo excludeN l acc amb = (c, a, true) →
      c = acc ++ l.map iupac_from_mask ∧ a = amb + ambCountMask l := by
  intro l
  induction l with
  | nil =>
    intro acc amb c a h
    rw [consensusFromMaskGo] at h
    have h1 : acc = c := congrArg Prod.fst h
    have h2 : amb = a := congrArg (fun p => p.2.1) h
    exact ⟨by rw [← h1]; simp, by rw [← h2]; simp [ambCountMask]⟩
  | cons m rest ih =>
    intro acc amb c a h
    rw [consensusFromMaskGo] at h
    by_cases hco : countOnes m > 1
    · rw [if_pos hco] at h
      by_cases hN : (excludeN && iupac_from_mask m == 'N') = true
      · rw [if_pos hN] at h
        have := congrArg (fun p => p.2.2) h
        simp at this
      · rw [if_neg hN] at h
        obtain ⟨h1, h2⟩ := ih (acc ++ [iupac_from_mask m]) (amb + 1) c a h
        refine ⟨by rw [h1]; simp, ?_⟩
        have : ambCountMask (m :: rest) = 1 + ambCountMask rest := by
          rw [ambCountMask, List.filter_cons, if_pos (by simpa using hco)]
          simp [ambCountMask]
          omega
        omega
    · rw [if_neg hco] at h
      obtain ⟨h1, h2⟩ := ih (acc ++ [iupac_from_mask m]) amb c a h
      refine ⟨by rw [h1]; simp, ?_⟩
      have : ambCountMask (m :: rest) = ambCountMask rest := by
        rw [ambCountMask, List.filter_cons, if_neg (by simpa using hco)]
        rfl
      omega

/-- Under `excludeN`, a valid consensus contains no `N` (provided the
accumulator had none). -/
theorem consensusFromMaskGo_no_N :
    ∀ (l : List Nat) (acc : DnaSeq) (amb : Nat) (c : DnaSeq) (a : Nat),
      consensusFromMaskGo true l acc amb = (c, a, true) →
      (∀ m ∈ l, m < 16) → 'N' ∉ acc → 'N' ∉ c := by
  intro l
  induction l with
  | nil =>
    intro acc amb c a h _ hacc
    have h1 : acc = c := congrArg Prod.fst h
    rwa [← h1]
  | cons m rest ih =>
    intro acc amb c a h hlt hacc
    rw [consensusFromMaskGo] at h
    have hm16 : m < 16 := hlt m (List.mem_cons_self _ _)
    by_cases hco : countOnes m > 1
    · rw [if_pos hco] at h
      by_cases hN : (true && iupac_from_mask m == 'N') = true
      · rw [if_pos hN] at h
        have := congrArg (fun p => p.2.2) h
        simp at this
      · rw [if_neg hN] at h
        refine ih (acc ++ [iupac_from_mask m]) (amb + 1) c a h
          (fun x hx => hlt x (List.mem_cons_of_mem _ hx)) ?_
        intro hmem
        rcases List.mem_append.mp hmem with h1 | h1
        · exact hacc h1
        · simp only [Bool.true_and, beq_iff_eq] at hN
          simp at h1
          exact hN (by rw [h1])
    · rw [if_neg hco] at h
      refine ih (acc ++ [iupac_from_mask m]) amb c a h
        (fun x hx => hlt x (List.mem_cons_of_mem _ hx)) ?_
      intro hmem
      rcases List.mem_append.mp hmem with h1 | h1
      · exact hacc h1
      · simp at h1
        have h15 : m = 15 := (iupac_eq_N_iff hm16).mp (by rw [h1])
        rw [h15] at hco
        exact hco (by decide)

/-- The IUPAC rendering of a mask has exactly the mask's multi-bit
positions as its ambiguity positions. -/
theorem count_ambiguities_map_iupac (l : List Nat) (hl : ∀ m ∈ l, m < 16) :
    count_ambiguities (l.map iupac_from_mask) = ambCountMask l := by
  rw [count_ambiguities, List.filter_map, List.length_map, ambCountMask]
  congr 1
  apply List.filter_congr
  intro m hm
  have hiff := iupac_ambiguous_iff (hl m hm)
  by_cases hc : countOnes m > 1
  · simp only [Function.comp]
    rw [hiff.mpr hc]
    simp [hc]
  · simp only [Function.comp]
    have : is_ambiguous_base (iupac_from_mask m) = false := by
      cases hb : is_ambiguous_base (iupac_from_mask m)
      · rfl
      · exact absurd (hiff.mp hb) hc
    rw [this]
    simp [hc]

/-! ### Matching and seed lemmas -/

/-- Sufficient per-position condition for a pattern match. -/
theorem matches_of_forall (seq pattern : DnaSeq) (hlen : seq.length = pattern.length)
    (h : ∀ i, i < seq.length →
      base_to_bit (seq.getD i '?') &&& base_to_bit (pattern.getD i '?') ≠ 0) :
    sequence_matches_consensus_bytes seq pattern = true := by
  unfold sequence_matches_consensus_bytes
  rw [Bool.and_eq_true, decide_eq_true_eq, List.all_eq_true]
  refine ⟨hlen, fun sc hsc => ?_⟩
  simp only [ne_eq, bne_iff_ne]
  obtain ⟨i, hiz, heq⟩ := List.mem_iff_getElem.mp hsc
  have hlt : i < seq.length := by
    rw [List.length_zip] at hiz; omega
  have hip : i < pattern.length := by
    rw [List.length_zip] at hiz; omega
  have := h i hlt
  rw [List.getD_eq_getElem seq '?' hlt, List.getD_eq_getElem pattern '?' hip] at this
  rw [← heq, List.getElem_zip]
  exact this

/-- Necessary per-position condition of a pattern match. -/
theorem forall_of_matches (seq pattern : DnaSeq)
    (h : sequence_matches_consensus_bytes seq pattern = true) :
    seq.length = pattern.length ∧
    ∀ i, i < seq.length →
      base_to_bit (seq.getD i '?') &&& base_to_bit (pattern.getD i '?') ≠ 0 := by
  unfold sequence_matches_consensus_bytes at h
  rw [Bool.and_eq_true, decide_eq_true_eq, List.all_eq_true] at h
  obtain ⟨hlen, hall⟩ := h
  refine ⟨hlen, fun i hi => ?_⟩
  have hip : i < pattern.length := by omega
  have hiz : i < (seq.zip pattern).length := by
    rw [List.length_zip]; omega
  have hz : (seq[i], pattern[i]) ∈ seq.zip pattern := by
    have := List.getElem_mem hiz
    rwa [List.getElem_zip] at this
  have := hall _ hz
  rw [List.getD_eq_getElem seq '?' hi, List.getD_eq_getElem pattern '?' hip]
  simpa using this

/-- On standard bases, mask intersection forces equality (enumeration). -/
theorem standard_bit_inj : ∀ a ∈ (['A','C','G','T'] : List Char),
    ∀ b ∈ (['A','C','G','T'] : List Char),
      (base_to_bit a &&& base_to_bit b ≠ 0 → a = b) ∧
      base_to_bit a &&& base_to_bit a ≠ 0 := by decide

/-- For plain A/C/G/T sequences, pattern matching is literal equality. -/
theorem matches_iff_eq_of_standard (u c : DnaSeq)
    (hu : ∀ x ∈ u, is_standard_base x = true)
    (hc : ∀ x ∈ c, is_standard_base x = true) :
    sequence_matches_consensus_bytes u c = true ↔ u = c := by
  have hmem : ∀ x : Char, is_standard_base x = true → x ∈ (['A','C','G','T'] : List Char) := by
    intro x hx
    have h4 : x = 'A' ∨ x = 'C' ∨ x = 'G' ∨ x = 'T' := by
      simpa [is_standard_base, or_assoc] using hx
    rcases h4 with rfl | rfl | rfl | rfl <;> simp
  constructor
  · intro h
    obtain ⟨hlen, hall⟩ := forall_of_matches u c h
    apply List.ext_getElem hlen
    intro i hi1 hi2
    have := hall i hi1
    rw [List.getD_eq_getElem u '?' hi1, List.getD_eq_getElem c '?' hi2] at this
    exact (standard_bit_inj _ (hmem _ (hu _ (List.getElem_mem hi1))) _
      (hmem _ (hc _ (List.getElem_mem hi2)))).1 this
  · rintro rfl
    apply matches_of_forall u u rfl
    intro i hi
    rw [List.getD_eq_getElem u '?' hi]
    exact (standard_bit_inj _ (hmem _ (hu _ (List.getElem_mem hi))) _
      (hmem _ (hu _ (List.getElem_mem hi)))).2

/-- The seed mask: entries below 16, length `L`, no ambiguity positions
for an A/C/G/T seed, and the `i`-th entry is the seed's `i`-th base mask. -/
theorem initMask_spec (seed : DnaSeq) (L : Nat)
    (hACGT : ∀ c ∈ seed, is_standard_base c = true) :
    (∀ x ∈ initMask seed L, x < 16) ∧ (initMask seed L).length = L ∧
    ambCountMask (initMask seed L) = 0 ∧
    ∀ i, i < L → (initMask seed L).getD i 0 = base_to_bit (seed.getD i '?') := by
  have hone : ∀ x ∈ initMask seed L, countOnes x ≤ 1 := by
    intro x hx
    obtain ⟨pos, hpos, hxe⟩ := List.mem_map.mp hx
    by_cases hp : pos < seed.length
    · have hchar : seed.getD pos '?' ∈ seed := by
        rw [List.getD_eq_getElem seed '?' hp]
        exact List.getElem_mem hp
      rw [← hxe]
      exact le_of_eq (base_to_bit_standard _ (hACGT _ hchar)).1
    · rw [← hxe, List.getD_eq_default _ _ (by omega)]
      decide
  refine ⟨?_, ?_, ?_, ?_⟩
  · intro x hx
    obtain ⟨pos, _, hxe⟩ := List.mem_map.mp hx
    rw [← hxe]
    exact base_to_bit_lt16 _
  · rw [initMask, List.length_map, List.length_range]
  · rw [ambCountMask, List.length_eq_zero, List.filter_eq_nil_iff]
    intro x hx
    have := hone x hx
    simp only [decide_eq_true_eq]
    omega
  · intro i hi
    have hlen2 : i < (initMask seed L).length := by
      rw [initMask, List.length_map, List.length_range]
      omega
    rw [List.getD_eq_getElem _ 0 hlen2]
    simp only [initMask, List.getElem_map, List.getElem_range]

/-- `foldCandidates` keeps the running ambiguity count within budget. -/
theorem foldCandidates_amb (excludeN : Bool) (maxAmb : Nat) (seed : DnaSeq) :
    ∀ (others : List DnaSeq) (gm : List Nat), ambCountMask gm ≤ maxAmb →
      ambCountMask (foldCandidates excludeN maxAmb seed others gm) ≤ maxAmb := by
  intro others
  induction others with
  | nil => intro gm hgm; rw [foldCandidates]; simpa using hgm
  | cons other rest ih =>
    intro gm hgm
    rw [foldCandidates_cons]
    by_cases hseed : other = seed
    · rw [if_pos hseed]; exact ih gm hgm
    · rw [if_neg hseed]
      by_cases htrial : trialScan excludeN maxAmb (orMask gm other) 0 = true
      · rw [if_pos htrial]
        exact ih _ (by simpa using (trialScan_spec excludeN maxAmb _ 0
          (Nat.zero_le _) htrial).1)
      · rw [if_neg htrial]; exact ih gm hgm

/-- Preservation of an invariant along a left fold. -/
theorem foldl_preserve {α β : Type} (P : β → Prop) (f : β → α → β) :
    ∀ (l : List α) (init : β), P init → (∀ b a, a ∈ l → P b → P (f b a)) →
      P (l.foldl f init) := by
  intro l
  induction l with
  | nil => intro init h _; exact h
  | cons a rest ih =>
    intro init h hstep
    rw [List.foldl_cons]
    exact ih (f init a) (hstep init a (List.mem_cons_self _ _) h)
      (fun b x hx hb => hstep b x (List.mem_cons_of_mem _ hx) hb)

/-! ### `find_best_consensus` invariants -/

/-- One seed step preserves: the running coverage is either still empty or
a validated filter of the uncovered pool, with the ambiguity bound and
(under `excludeN`) N-freeness of the running consensus for A/C/G/T
input. -/
theorem bestConsensusStep_P (uncovered : List DnaSeq) (counts : DnaSeq → Nat)
    (maxAmb : Nat) (excludeN : Bool) (seqLen : Nat)
    (st : DnaSeq × List DnaSeq × Nat) (seed : DnaSeq) (hmem : seed ∈ uncovered)
    (hP : st.2.1 = [] ∨
      (st.2.1 = uncovered.filter (fun s => sequence_matches_consensus_bytes s st.1) ∧
       ((∀ s ∈ uncovered, ∀ c ∈ s, is_standard_base c = true) →
          count_ambiguities st.1 ≤ maxAmb ∧ (excludeN = true → 'N' ∉ st.1)))) :
    (bestConsensusStep uncovered counts maxAmb excludeN seqLen st seed).2.1 = [] ∨
    ((bestConsensusStep uncovered counts maxAmb excludeN seqLen st seed).2.1 =
       uncovered.filter (fun s => sequence_matches_consensus_bytes s
         (bestConsensusStep uncovered counts maxAmb excludeN seqLen st seed).1) ∧
     ((∀ s ∈ uncovered, ∀ c ∈ s, is_standard_base c = true) →
        count_ambiguities (bestConsensusStep uncovered counts maxAmb excludeN seqLen st seed).1 ≤ maxAmb ∧
        (excludeN = true →
          'N' ∉ (bestConsensusStep uncovered counts maxAmb excludeN seqLen st seed).1))) := by
  rw [bestConsensusStep]
  by_cases hval : (consensus_from_mask excludeN
      (foldCandidates excludeN maxAmb seed uncovered (initMask seed seqLen))).2.2 = false
  · rw [if_pos hval]
    exact hP
  · rw [if_neg hval]
    by_cases hsc : ((uncovered.filter fun s => sequence_matches_consensus_bytes s
        (consensus_from_mask excludeN (foldCandidates excludeN maxAmb seed uncovered
          (initMask seed seqLen))).1).map counts).sum > st.2.2
    · rw [if_pos hsc]
      refine Or.inr ⟨rfl, ?_⟩
      intro hACGT
      have hseedACGT : ∀ c ∈ seed, is_standard_base c = true := hACGT seed hmem
      obtain ⟨hlt16, _, hamb0, _⟩ := initMask_spec seed seqLen hseedACGT
      obtain ⟨_, hgm16, _⟩ := foldCandidates_spec excludeN maxAmb seed uncovered
        (initMask seed seqLen) hlt16
      have hambgm : ambCountMask (foldCandidates excludeN maxAmb seed uncovered
          (initMask seed seqLen)) ≤ maxAmb :=
        foldCandidates_amb excludeN maxAmb seed uncovered (initMask seed seqLen)
          (by rw [hamb0]; exact Nat.zero_le _)
      have hv : (consensus_from_mask excludeN (foldCandidates excludeN maxAmb seed
          uncovered (initMask seed seqLen))).2.2 = true := by
        cases hb : (consensus_from_mask excludeN (foldCandidates excludeN maxAmb seed
            uncovered (initMask seed seqLen))).2.2
        · exact absurd hb hval
        · rfl
      have hrun : consensusFromMaskGo excludeN
          (foldCandidates excludeN maxAmb seed uncovered (initMask seed seqLen)) [] 0 =
          ((consensus_from_mask excludeN (foldCandidates excludeN maxAmb seed uncovered
            (initMask seed seqLen))).1,
           (consensus_from_mask excludeN (foldCandidates excludeN maxAmb seed uncovered
            (initMask seed seqLen))).2.1, true) := by
        rw [← hv]
        rfl
      obtain ⟨hc1, _⟩ := consensusFromMaskGo_valid excludeN _ [] 0 _ _ hrun
      constructor
      · rw [hc1]
        simp only [List.nil_append]
        rw [count_ambiguities_map_iupac _ hgm16]
        exact hambgm
      · intro hex
        subst hex
        exact consensusFromMaskGo_no_N _ [] 0 _ _ hrun hgm16 (List.not_mem_nil _)
    · rw [if_neg hsc]
      exact hP

/-- The returned coverage of `find_best_consensus` is either empty or the
validated filter of the uncovered pool by its returned consensus, which
for A/C/G/T input respects the ambiguity bound and, under `excludeN`,
contains no `N`. -/
theorem find_best_consensus_spec (uncovered : List DnaSeq) (counts : DnaSeq → Nat)
    (maxAmb : Nat) (excludeN : Bool) :
    (find_best_consensus uncovered counts maxAmb excludeN).2 = [] ∨
    ((find_best_consensus uncovered counts maxAmb excludeN).2 =
       uncovered.filter (fun s => sequence_matches_consensus_bytes s
         (find_best_consensus uncovered counts maxAmb excludeN).1) ∧
     ((∀ s ∈ uncovered, ∀ c ∈ s, is_standard_base c = true) →
        count_ambiguities (find_best_consensus uncovered counts maxAmb excludeN).1 ≤ maxAmb ∧
        (excludeN = true →
          'N' ∉ (find_best_consensus uncovered counts maxAmb excludeN).1))) := by
  rw [find_best_consensus]
  by_cases h0 : ((uncovered.insertionSort fun a b => counts b ≤ counts a).headD []).length = 0
  · rw [if_pos h0]
    exact Or.inl rfl
  · rw [if_neg h0]
    exact foldl_preserve
      (fun st : DnaSeq × List DnaSeq × Nat =>
        st.2.1 = [] ∨
        (st.2.1 = uncovered.filter (fun s => sequence_matches_consensus_bytes s st.1) ∧
         ((∀ s ∈ uncovered, ∀ c ∈ s, is_standard_base c = true) →
            count_ambiguities st.1 ≤ maxAmb ∧ (excludeN = true → 'N' ∉ st.1))))
      (bestConsensusStep uncovered counts maxAmb excludeN
        ((uncovered.insertionSort fun a b => counts b ≤ counts a).headD []).length)
      ((uncovered.insertionSort fun a b => counts b ≤ counts a).take 50)
      ([], [], 0) (Or.inl rfl)
      (fun b a ha hb => bestConsensusStep_P uncovered counts maxAmb excludeN _ b a
        ((List.perm_insertionSort _ _).mem_iff.mp (List.mem_of_mem_take ha)) hb)

/-! ### Greedy cover: mass and ambiguity-bound theorems -/

/-- Splitting a weighted sum over a predicate. -/
theorem sum_filter_split (l : List DnaSeq) (p : DnaSeq → Bool) (f : DnaSeq → ℕ) :
    ((l.filter p).map f).sum + ((l.filter fun s => !(p s)).map f).sum = (l.map f).sum := by
  induction l with
  | nil => simp
  | cons a t ih =>
    by_cases hp : p a = true
    · rw [List.filter_cons, if_pos (by simpa using hp),
        List.filter_cons, if_neg (by simp [hp])]
      simp only [List.map_cons, List.sum_cons]
      omega
    · rw [List.filter_cons, if_neg (by simpa using hp),
        List.filter_cons, if_pos (by simp [hp])]
      simp only [List.map_cons, List.sum_cons]
      omega

/-- Removing the members of `l.filter p` from `l` is filtering by `!p`. -/
theorem filter_not_mem_filter (l : List DnaSeq) (p : DnaSeq → Bool) :
    (l.filter fun s => decide (s ∉ l.filter p)) = l.filter fun s => !(p s) := by
  apply List.filter_congr
  intro s hs
  by_cases hp : p s = true
  · have hin : s ∈ l.filter p := List.mem_filter.mpr ⟨hs, hp⟩
    simp [hin, hp]
  · have hout : s ∉ l.filter p := fun hx => hp (List.mem_filter.mp hx).2
    simp [hout, hp]

/-- A standard base is not an ambiguity code and is not `N`. -/
theorem standard_base_facts (c : Char) (h : is_standard_base c = true) :
    is_ambiguous_base c = false ∧ c ≠ 'N' := by
  have h4 : c = 'A' ∨ c = 'C' ∨ c = 'G' ∨ c = 'T' := by
    simpa [is_standard_base, or_assoc] using h
  rcases h4 with rfl | rfl | rfl | rfl <;> exact ⟨rfl, by decide⟩

/-- A plain A/C/G/T sequence has no ambiguity positions. -/
theorem count_ambiguities_standard (s : DnaSeq)
    (h : ∀ c ∈ s, is_standard_base c = true) : count_ambiguities s = 0 := by
  rw [count_ambiguities, List.length_eq_zero, List.filter_eq_nil_iff]
  intro c hc
  rw [(standard_base_facts c (h c hc)).1]
  simp

/-- Erasing one occurrence of a member splits a weighted sum. -/
theorem sum_map_erase_mem (f : DnaSeq → ℕ) :
    ∀ (l : List DnaSeq) (a : DnaSeq), a ∈ l →
      f a + ((l.erase a).map f).sum = (l.map f).sum := by
  intro l
  induction l with
  | nil => intro a h; cases h
  | cons b t ih =>
    intro a h
    rw [List.erase_cons]
    by_cases hba : b = a
    · rw [if_pos (beq_iff_eq.mpr hba)]
      simp only [List.map_cons, List.sum_cons]
      rw [hba]
    · rw [if_neg (by simp [hba])]
      simp only [List.map_cons, List.sum_cons]
      have hat : a ∈ t := by
        rcases List.mem_cons.mp h with rfl | h2
        · exact absurd rfl hba
        · exact h2
      rw [← ih a hat]
      omega

/-- The greedy loop preserves total mass: the emitted counts sum to the
summed multiplicities of the uncovered pool. -/
theorem greedyGo_mass (seqs : List DnaSeq) (maxAmb : Nat) (excludeN : Bool) :
    ∀ (fuel : Nat) (uncovered : List DnaSeq), uncovered.Nodup →
      uncovered.length ≤ fuel →
      ((greedyGo seqs maxAmb excludeN fuel uncovered).map fun v => v.count).sum =
        (uncovered.map fun s => seqs.count s).sum := by
  intro fuel
  induction fuel with
  | zero =>
    intro uncovered _ hlen
    have he : uncovered = [] := List.length_eq_zero.mp (by omega)
    subst he
    rw [greedyGo]
    simp
  | succ fuel ih =>
    intro uncovered hnd hlen
    rw [greedyGo]
    by_cases hemp : uncovered = []
    · rw [if_pos hemp]
      subst hemp
      simp
    · rw [if_neg hemp]
      by_cases hcov : (find_best_consensus uncovered (fun s => seqs.count s)
          maxAmb excludeN).2 = []
      · rw [if_pos hcov]
        cases harg : uncovered.argmax (fun s => seqs.count s) with
        | none => exact absurd (List.argmax_eq_none.mp harg) hemp
        | some mf =>
          have hmf : mf ∈ uncovered := List.argmax_mem harg
          simp only [List.map_cons, List.sum_cons]
          rw [ih (uncovered.erase mf) (hnd.erase mf) (by
            rw [List.length_erase_of_mem hmf]
            have := List.length_pos.mpr hemp
            omega)]
          exact sum_map_erase_mem (fun s => seqs.count s) uncovered mf hmf
      · rw [if_neg hcov]
        rcases find_best_consensus_spec uncovered (fun s => seqs.count s)
            maxAmb excludeN with h | ⟨hfil, _⟩
        · exact absurd h hcov
        · have hx : ∃ x, x ∈ (find_best_consensus uncovered (fun s => seqs.count s)
              maxAmb excludeN).2 := List.exists_mem_of_ne_nil _ hcov
          obtain ⟨x, hxmem⟩ := hx
          rw [hfil] at hxmem
          obtain ⟨hxu, hxp⟩ := List.mem_filter.mp hxmem
          have hlt : (uncovered.filter fun s => decide (s ∉ (find_best_consensus
              uncovered (fun s => seqs.count s) maxAmb excludeN).2)).length <
              uncovered.length := by
            rw [hfil, filter_not_mem_filter]
            rw [List.length_filter_lt_length_iff_exists]
            exact ⟨x, hxu, by simp [hxp]⟩
          simp only [List.map_cons, List.sum_cons]
          rw [ih (uncovered.filter fun s => decide (s ∉ (find_best_consensus
              uncovered (fun s => seqs.count s) maxAmb excludeN).2))
            (hnd.filter _) (by omega)]
          rw [hfil, filter_not_mem_filter]
          exact sum_filter_split uncovered _ (fun s => seqs.count s)

/-- The greedy loop emits only variants within the ambiguity budget and,
under `excludeN`, without `N`, for A/C/G/T input pools. -/
theorem greedyGo_prop (seqs : List DnaSeq) (maxAmb : Nat) (excludeN : Bool) :
    ∀ (fuel : Nat) (uncovered : List DnaSeq),
      (∀ s ∈ uncovered, ∀ c ∈ s, is_standard_base c = true) →
      ∀ v ∈ greedyGo seqs maxAmb excludeN fuel uncovered,
        count_ambiguities v.sequence ≤ maxAmb ∧
        (excludeN = true → 'N' ∉ v.sequence) := by
  intro fuel
  induction fuel with
  | zero =>
    intro uncovered _ v hv
    rw [greedyGo] at hv
    exact absurd hv (List.not_mem_nil v)
  | succ fuel ih =>
    intro uncovered hACGT v hv
    rw [greedyGo] at hv
    by_cases hemp : uncovered = []
    · rw [if_pos hemp] at hv
      exact absurd hv (List.not_mem_nil v)
    · rw [if_neg hemp] at hv
      by_cases hcov : (find_best_consensus uncovered (fun s => seqs.count s)
          maxAmb excludeN).2 = []
      · rw [if_pos hcov] at hv
        cases harg : uncovered.argmax (fun s => seqs.count s) with
        | none =>
          rw [harg] at hv
          exact absurd hv (List.not_mem_nil v)
        | some mf =>
          rw [harg] at hv
          have hmf : mf ∈ uncovered := List.argmax_mem harg
          rcases List.mem_cons.mp hv with rfl | hv2
          · constructor
            · show count_ambiguities mf ≤ maxAmb
              rw [count_ambiguities_standard mf (hACGT mf hmf)]
              exact Nat.zero_le _
            · intro _ hN
              exact (standard_base_facts 'N' (hACGT mf hmf 'N' hN)).2 rfl
          · exact ih (uncovered.erase mf)
              (fun s hs => hACGT s (List.mem_of_mem_erase hs)) v hv2
      · rw [if_neg hcov] at hv
        rcases find_best_consensus_spec uncovered (fun s => seqs.count s)
            maxAmb excludeN with h | ⟨_, himpl⟩
        · exact absurd h hcov
        · rcases List.mem_cons.mp hv with rfl | hv2
          · exact himpl hACGT
          · exact ih (uncovered.filter fun s => decide (s ∉ (find_best_consensus
              uncovered (fun s => seqs.count s) maxAmb excludeN).2))
              (fun s hs => hACGT s (List.mem_of_mem_filter hs)) v hv2

/-- C10: for every input (no hypotheses needed — the fallback always
makes progress), the greedy bounded-ambiguity cover terminates with its
fuel and the counts of the returned variants sum to the input length:
every input sequence is accounted for exactly once. -/
theorem c10_greedy_total_mass (seqs : List DnaSeq) (maxAmb : Nat) (excludeN : Bool) :
    ((find_minimum_variants_greedy seqs maxAmb excludeN).map fun v => v.count).sum =
      seqs.length := by
  rw [find_minimum_variants_greedy]
  by_cases hemp : seqs = []
  · rw [if_pos hemp]
    subst hemp
    rfl
  · rw [if_neg hemp]
    rw [greedyGo_mass seqs maxAmb excludeN seqs.dedup.length seqs.dedup
      seqs.nodup_dedup (le_refl _)]
    exact sum_map_count_dedup_self seqs

/-- C4: for an A/C/G/T input population, every variant the greedy cover
returns stays within the `max_ambiguities` budget, and with `exclude_n`
set its consensus contains no `N`. -/
theorem c4_greedy_ambiguity_bound (seqs : List DnaSeq) (maxAmb : Nat)
    (excludeN : Bool)
    (hACGT : ∀ s ∈ seqs, ∀ c ∈ s, is_standard_base c = true) :
    ∀ v ∈ find_minimum_variants_greedy seqs maxAmb excludeN,
      count_ambiguities v.sequence ≤ maxAmb ∧
      (excludeN = true → 'N' ∉ v.sequence) := by
  rw [find_minimum_variants_greedy]
  by_cases hemp : seqs = []
  · rw [if_pos hemp]
    intro v hv
    exact absurd hv (List.not_mem_nil v)
  · rw [if_neg hemp]
    exact greedyGo_prop seqs maxAmb excludeN seqs.dedup.length seqs.dedup
      (fun s hs => hACGT s (List.mem_dedup.mp hs))

/-- C4 witness: the greedy cover on `["ACGT", "ACGA"]` with one allowed
ambiguity and `exclude_n` on. -/
theorem c4_greedy_ambiguity_bound_witness :
    (∀ s ∈ [['A','C','G','T'], ['A','C','G','A']],
      ∀ c ∈ s, is_standard_base c = true) ∧
    (∀ v ∈ find_minimum_variants_greedy [['A','C','G','T'], ['A','C','G','A']] 1 true,
      count_ambiguities v.sequence ≤ 1 ∧ (true = true → 'N' ∉ v.sequence)) :=
  ⟨by decide,
   c4_greedy_ambiguity_bound [['A','C','G','T'], ['A','C','G','A']] 1 true (by decide)⟩

/-! ### Incremental cover: counting lemmas -/

/-- Count of an element in a filtered list. -/
theorem count_filter_eq (p : DnaSeq → Bool) (u : DnaSeq) :
    ∀ l : List DnaSeq, (l.filter p).count u = if p u then l.count u else 0 := by
  intro l
  induction l with
  | nil => simp
  | cons a t ih =>
    rw [List.filter_cons]
    by_cases hp : p a = true
    · rw [if_pos (by simpa using hp), List.count_cons, ih, List.count_cons]
      by_cases hau : a = u
      · subst hau
        rw [if_pos hp] at *
        simp [hp]
      · have : (a == u) = false := by simp [hau]
        rw [this]
        simp
    · rw [if_neg (by simpa using hp), ih, List.count_cons]
      by_cases hau : a = u
      · subst hau
        rw [if_neg (by simpa using hp), if_neg (by simpa using hp)]
      · have : (a == u) = false := by simp [hau]
        rw [this]
        simp

/-- Summing multiplicities over a duplicate-free superset of the elements
counts the length. -/
theorem sum_counts_over_nodup (d : List DnaSeq) (hd : d.Nodup) :
    ∀ l2 : List DnaSeq, (∀ x ∈ l2, x ∈ d) →
      ((d.map fun u => l2.count u).sum) = l2.length := by
  intro l2
  induction l2 with
  | nil =>
    intro _
    simp
  | cons a t ih =>
    intro hsub
    have hcc : (d.map fun u => (a :: t).count u) =
        d.map fun u => t.count u + if a == u then 1 else 0 := by
      apply List.map_congr_left
      intro u _
      rw [List.count_cons]
    rw [hcc, sum_map_add_nat, ih (fun x hx => hsub x (List.mem_cons_of_mem a hx)),
      sum_map_ite_one a d hd (hsub a (List.mem_cons_self a t))]
    simp

/-- The weighted coverage sum of the source equals the number of matching
sequences in the full remaining pool. -/
theorem weighted_match_sum (rem : List DnaSeq) (p : DnaSeq → Bool) :
    ((rem.dedup.map fun u => if p u then rem.count u else 0).sum) =
      (rem.filter p).length := by
  have h1 : (rem.dedup.map fun u => if p u then rem.count u else 0) =
      rem.dedup.map fun u => (rem.filter p).count u := by
    apply List.map_congr_left
    intro u _
    rw [count_filter_eq p u rem]
  rw [h1]
  exact sum_counts_over_nodup rem.dedup rem.nodup_dedup (rem.filter p)
    (fun x hx => List.mem_dedup.mpr (List.mem_of_mem_filter hx))

/-- Weighted indicator sum over a duplicate-free list. -/
theorem sum_map_ite_count (f : DnaSeq → ℕ) (a : DnaSeq) :
    ∀ d : List DnaSeq, d.Nodup → a ∈ d →
      (d.map fun s => if s = a then f s else 0).sum = f a := by
  intro d
  induction d with
  | nil => intro _ h; exact absurd h (List.not_mem_nil a)
  | cons b t ih =>
    intro hnd hmem
    simp only [List.map_cons, List.sum_cons]
    by_cases hba : b = a
    · subst hba
      have hnotin : b ∉ t := (List.nodup_cons.mp hnd).1
      have hz : (t.map fun s => if s = b then f s else 0).sum = 0 := by
        rw [List.sum_eq_zero]
        intro x hx
        obtain ⟨s, hs, hxs⟩ := List.mem_map.mp hx
        rw [← hxs, if_neg (by rintro rfl; exact hnotin hs)]
      rw [if_pos rfl, hz]
      simp
    · have hmem2 : a ∈ t := by
        rcases List.mem_cons.mp hmem with h | h
        · exact absurd h.symm hba
        · exact h
      rw [ih (List.nodup_cons.mp hnd).2 hmem2, if_neg hba]
      simp

/-- Length split of a list over a predicate. -/
theorem length_filter_split (p : DnaSeq → Bool) :
    ∀ l : List DnaSeq, (l.filter p).length + (l.filter fun s => !(p s)).length =
      l.length := by
  intro l
  induction l with
  | nil => simp
  | cons a t ih =>
    by_cases hp : p a = true
    · rw [List.filter_cons, if_pos (by simpa using hp),
        List.filter_cons, if_neg (by simp [hp])]
      simp only [List.length_cons]
      omega
    · rw [List.filter_cons, if_neg (by simpa using hp),
        List.filter_cons, if_pos (by simp [hp])]
      simp only [List.length_cons]
      omega

/-- Reading an element of a code-rendered mask. -/
theorem getD_map_iupac (l : List Nat) (i : Nat) (hi : i < l.length) :
    (l.map iupac_from_mask).getD i '?' = iupac_from_mask (l.getD i 0) := by
  rw [List.getD_eq_getElem _ '?' (by rw [List.length_map]; omega),
    List.getElem_map, List.getD_eq_getElem _ 0 hi]

/-- The seed sequence always matches the consensus rendered from any
candidate fold grown out of its own mask. -/
theorem seed_matches_foldmask (seed : DnaSeq) (others : List DnaSeq)
    (excludeN : Bool) (maxAmb : Nat) (seqLen : Nat)
    (hseed : ∀ c ∈ seed, is_standard_base c = true)
    (hlen : seed.length = seqLen) :
    sequence_matches_consensus_bytes seed
      ((foldCandidates excludeN maxAmb seed others (initMask seed seqLen)).map
        iupac_from_mask) = true := by
  obtain ⟨hlt16, hleni, _, hgetD⟩ := initMask_spec seed seqLen hseed
  obtain ⟨⟨_, hptw⟩, hgm16, hglen⟩ := foldCandidates_spec excludeN maxAmb seed
    others (initMask seed seqLen) hlt16
  apply matches_of_forall
  · rw [List.length_map, hglen, hleni, hlen]
  · intro i hi
    have hiL : i < seqLen := by omega
    have higm : i < (foldCandidates excludeN maxAmb seed others
        (initMask seed seqLen)).length := by
      rw [hglen, hleni]
      omega
    rw [getD_map_iupac _ i higm,
      base_to_bit_iupac (getD_lt16 hgm16 i)]
    have hch : seed.getD i '?' ∈ seed := by
      rw [List.getD_eq_getElem seed '?' hi]
      exact List.getElem_mem hi
    have hbz := (base_to_bit_standard _ (hseed _ hch)).2
    have hle : base_to_bit (seed.getD i '?') |||
        (foldCandidates excludeN maxAmb seed others (initMask seed seqLen)).getD i 0 =
        (foldCandidates excludeN maxAmb seed others (initMask seed seqLen)).getD i 0 := by
      have := hptw i
      rwa [hgetD i hiL] at this
    rw [mask_and_of_le (base_to_bit_lt16 _) (getD_lt16 hgm16 i) hle]
    exact hbz

/-! ### `find_incremental_consensus` invariants -/

/-- One seed step of the incremental search preserves: the running best
is either still empty or carries exactly its validated weighted coverage
and is matched by at least one remaining unique sequence. -/
theorem incrementalSeedStep_P (uniqueRemaining : List DnaSeq) (counts : DnaSeq → Nat)
    (targetCount : Nat) (excludeN : Bool) (seqLen level : Nat)
    (st : IncBest) (seed : DnaSeq) (hmem : seed ∈ uniqueRemaining)
    (hseedACGT : ∀ c ∈ seed, is_standard_base c = true)
    (hseedLen : seed.length = seqLen)
    (hP : st.consensus = [] ∨
      (st.coverage = (uniqueRemaining.map fun u =>
         if sequence_matches_consensus_bytes u st.consensus then counts u else 0).sum ∧
       ∃ u ∈ uniqueRemaining, sequence_matches_consensus_bytes u st.consensus = true)) :
    (incrementalSeedStep uniqueRemaining counts targetCount excludeN seqLen level
        st seed).consensus = [] ∨
    ((incrementalSeedStep uniqueRemaining counts targetCount excludeN seqLen level
        st seed).coverage = (uniqueRemaining.map fun u =>
          if sequence_matches_consensus_bytes u (incrementalSeedStep uniqueRemaining
            counts targetCount excludeN seqLen level st seed).consensus
          then counts u else 0).sum ∧
     ∃ u ∈ uniqueRemaining, sequence_matches_consensus_bytes u
       (incrementalSeedStep uniqueRemaining counts targetCount excludeN seqLen level
         st seed).consensus = true) := by
  simp only [incrementalSeedStep]
  by_cases hc1 : ((consensus_from_mask excludeN (foldCandidates excludeN level seed
      uniqueRemaining (initMask seed seqLen))).2.2 = false ∨
      (consensus_from_mask excludeN (foldCandidates excludeN level seed uniqueRemaining
      (initMask seed seqLen))).2.1 > level)
  · rw [if_pos hc1]
    exact hP
  · rw [if_neg hc1]
    have hv : (consensus_from_mask excludeN (foldCandidates excludeN level seed
        uniqueRemaining (initMask seed seqLen))).2.2 = true := by
      cases hb : (consensus_from_mask excludeN (foldCandidates excludeN level seed
          uniqueRemaining (initMask seed seqLen))).2.2
      · exact absurd (Or.inl hb) hc1
      · rfl
    have hrun : consensusFromMaskGo excludeN
        (foldCandidates excludeN level seed uniqueRemaining (initMask seed seqLen)) [] 0 =
        ((consensus_from_mask excludeN (foldCandidates excludeN level seed uniqueRemaining
          (initMask seed seqLen))).1,
         (consensus_from_mask excludeN (foldCandidates excludeN level seed uniqueRemaining
          (initMask seed seqLen))).2.1, true) := by
      rw [← hv]
      rfl
    obtain ⟨hc1eq, _⟩ := consensusFromMaskGo_valid excludeN _ [] 0 _ _ hrun
    have hmatch : sequence_matches_consensus_bytes seed
        (consensus_from_mask excludeN (foldCandidates excludeN level seed uniqueRemaining
          (initMask seed seqLen))).1 = true := by
      rw [hc1eq]
      simp only [List.nil_append]
      exact seed_matches_foldmask seed uniqueRemaining excludeN level seqLen
        hseedACGT hseedLen
    split_ifs
    · exact Or.inr ⟨rfl, ⟨seed, hmem, hmatch⟩⟩
    · exact hP
    · exact Or.inr ⟨rfl, ⟨seed, hmem, hmatch⟩⟩
    · exact hP

/-- The invariant survives one full ambiguity level. -/
theorem incrementalLevelStep_P (uniqueRemaining : List DnaSeq) (counts : DnaSeq → Nat)
    (targetCount : Nat) (excludeN : Bool) (seqLen : Nat)
    (hACGT : ∀ s ∈ uniqueRemaining, ∀ c ∈ s, is_standard_base c = true)
    (hLen : ∀ s ∈ uniqueRemaining, s.length = seqLen)
    (st : IncBest) (level : Nat)
    (hP : st.consensus = [] ∨
      (st.coverage = (uniqueRemaining.map fun u =>
         if sequence_matches_consensus_bytes u st.consensus then counts u else 0).sum ∧
       ∃ u ∈ uniqueRemaining, sequence_matches_consensus_bytes u st.consensus = true)) :
    (incrementalLevelStep uniqueRemaining counts targetCount excludeN seqLen
        st level).consensus = [] ∨
    ((incrementalLevelStep uniqueRemaining counts targetCount excludeN seqLen
        st level).coverage = (uniqueRemaining.map fun u =>
          if sequence_matches_consensus_bytes u (incrementalLevelStep uniqueRemaining
            counts targetCount excludeN seqLen st level).consensus
          then counts u else 0).sum ∧
     ∃ u ∈ uniqueRemaining, sequence_matches_consensus_bytes u
       (incrementalLevelStep uniqueRemaining counts targetCount excludeN seqLen
         st level).consensus = true) := by
  rw [incrementalLevelStep]
  by_cases hf : st.found = true
  · rw [if_pos hf]
    exact hP
  · rw [if_neg hf]
    exact foldl_preserve
      (fun st : IncBest =>
        st.consensus = [] ∨
        (st.coverage = (uniqueRemaining.map fun u =>
           if sequence_matches_consensus_bytes u st.consensus then counts u else 0).sum ∧
         ∃ u ∈ uniqueRemaining, sequence_matches_consensus_bytes u st.consensus = true))
      (incrementalSeedStep uniqueRemaining counts targetCount excludeN seqLen level)
      ((uniqueRemaining.insertionSort fun a b => counts b ≤ counts a).take 50)
      st hP
      (fun b a ha hb =>
        have hau : a ∈ uniqueRemaining :=
          (List.perm_insertionSort _ _).mem_iff.mp (List.mem_of_mem_take ha)
        incrementalSeedStep_P uniqueRemaining counts targetCount excludeN seqLen level
          b a hau (hACGT a hau) (hLen a hau) hb)

/-- The pair returned by `find_incremental_consensus` consists of a
consensus matched by at least one remaining sequence together with its
exact validated weighted coverage. -/
theorem find_incremental_consensus_spec (uniqueRemaining : List DnaSeq)
    (counts : DnaSeq → Nat) (targetCount : Nat) (excludeN : Bool)
    (maxAmb : Option Nat)
    (hne : uniqueRemaining ≠ [])
    (hnd : uniqueRemaining.Nodup)
    (hACGT : ∀ s ∈ uniqueRemaining, ∀ c ∈ s, is_standard_base c = true)
    (hLen : ∀ s ∈ uniqueRemaining, s.length = (uniqueRemaining.headD []).length) :
    (find_incremental_consensus uniqueRemaining counts targetCount excludeN maxAmb).2 =
      (uniqueRemaining.map fun u => if sequence_matches_consensus_bytes u
        (find_incremental_consensus uniqueRemaining counts targetCount excludeN
          maxAmb).1 then counts u else 0).sum ∧
    ∃ u ∈ uniqueRemaining, sequence_matches_consensus_bytes u
      (find_incremental_consensus uniqueRemaining counts targetCount excludeN
        maxAmb).1 = true := by
  have hfold := foldl_preserve
    (fun st : IncBest =>
      st.consensus = [] ∨
      (st.coverage = (uniqueRemaining.map fun u =>
         if sequence_matches_consensus_bytes u st.consensus then counts u else 0).sum ∧
       ∃ u ∈ uniqueRemaining, sequence_matches_consensus_bytes u st.consensus = true))
    (incrementalLevelStep uniqueRemaining counts targetCount excludeN
      (uniqueRemaining.headD []).length)
    (List.range ((maxAmb.getD (uniqueRemaining.headD []).length) + 1))
    ⟨[], 0, false⟩ (Or.inl rfl)
    (fun b a _ hb => incrementalLevelStep_P uniqueRemaining counts targetCount
      excludeN (uniqueRemaining.headD []).length hACGT hLen b a hb)
  simp only [find_incremental_consensus]
  rw [if_neg hne]
  by_cases hfc : ((List.range ((maxAmb.getD (uniqueRemaining.headD []).length) + 1)).foldl
      (incrementalLevelStep uniqueRemaining counts targetCount excludeN
        (uniqueRemaining.headD []).length) ⟨[], 0, false⟩).consensus = []
  · rw [if_pos hfc]
    cases harg : uniqueRemaining.argmax counts with
    | none => exact absurd (List.argmax_eq_none.mp harg) hne
    | some mf =>
      have hmf : mf ∈ uniqueRemaining := List.argmax_mem harg
      have hmfACGT := hACGT mf hmf
      constructor
      · show counts mf = _
        have hcong : (uniqueRemaining.map fun u =>
            if sequence_matches_consensus_bytes u mf then counts u else 0) =
            uniqueRemaining.map fun u => if u = mf then counts u else 0 := by
          apply List.map_congr_left
          intro u hu
          by_cases he : u = mf
          · rw [if_pos ((matches_iff_eq_of_standard u mf (hACGT u hu) hmfACGT).mpr he),
              if_pos he]
          · rw [if_neg ?hne2, if_neg he]
            case hne2 =>
              intro hm
              exact he ((matches_iff_eq_of_standard u mf (hACGT u hu) hmfACGT).mp hm)
        rw [hcong, sum_map_ite_count counts mf uniqueRemaining hnd hmf]
      · exact ⟨mf, hmf,
          (matches_iff_eq_of_standard mf mf hmfACGT hmfACGT).mpr rfl⟩
  · rw [if_neg hfc]
    rcases hfold with h | ⟨hcov, hwit⟩
    · exact absurd h hfc
    · exact ⟨hcov, hwit⟩

/-- The nonempty dedup of a nonempty list. -/
theorem dedup_ne_nil (l : List DnaSeq) (h : l ≠ []) : l.dedup ≠ [] := by
  cases l with
  | nil => exact absurd rfl h
  | cons a t =>
    intro hd
    have : a ∈ ([] : List DnaSeq) := hd ▸ List.mem_dedup.mpr (List.mem_cons_self a t)
    exact absurd this (List.not_mem_nil a)

/-- The head of the dedup is one of the deduplicated elements. -/
theorem headD_mem_of_ne_nil (l : List DnaSeq) (h : l ≠ []) : l.headD [] ∈ l := by
  cases l with
  | nil => exact absurd rfl h
  | cons a t => exact List.mem_cons_self a t

/-- The incremental loop preserves total mass: at every step the emitted
count equals the number of sequences removed. -/
theorem incrementalGo_mass (totalOriginal : Nat) (targetPct : ℚ) (excludeN : Bool)
    (maxAmb : Option Nat) (L : Nat) :
    ∀ (fuel : Nat) (remaining : List DnaSeq),
      (∀ s ∈ remaining, ∀ c ∈ s, is_standard_base c = true) →
      (∀ s ∈ remaining, s.length = L) →
      remaining.length ≤ fuel →
      ((incrementalGo totalOriginal targetPct excludeN maxAmb fuel remaining).map
        fun v => v.count).sum = remaining.length := by
  intro fuel
  induction fuel with
  | zero =>
    intro remaining _ _ hlen
    have he : remaining = [] := List.length_eq_zero.mp (by omega)
    subst he
    rw [incrementalGo]
    rfl
  | succ fuel ih =>
    intro remaining hACGT hL hlen
    rw [incrementalGo]
    by_cases hemp : remaining = []
    · rw [if_pos hemp]
      subst hemp
      rfl
    · rw [if_neg hemp]
      have hdne : remaining.dedup ≠ [] := dedup_ne_nil remaining hemp
      have hdACGT : ∀ s ∈ remaining.dedup, ∀ c ∈ s, is_standard_base c = true :=
        fun s hs => hACGT s (List.mem_dedup.mp hs)
      have hdLen : ∀ s ∈ remaining.dedup, s.length = (remaining.dedup.headD []).length := by
        intro s hs
        rw [hL s (List.mem_dedup.mp hs),
          hL (remaining.dedup.headD []) (List.mem_dedup.mp
            (headD_mem_of_ne_nil remaining.dedup hdne))]
      obtain ⟨hcov, u, hu, hum⟩ := find_incremental_consensus_spec remaining.dedup
        (fun s => remaining.count s)
        ((⌈targetPct / 100 * (remaining.length : ℚ)⌉).toNat) excludeN maxAmb
        hdne remaining.nodup_dedup hdACGT hdLen
      simp only [List.map_cons, List.sum_cons]
      have hwms := weighted_match_sum remaining
        (fun s => sequence_matches_consensus_bytes s
          (find_incremental_consensus remaining.dedup (fun s => remaining.count s)
            ((⌈targetPct / 100 * (remaining.length : ℚ)⌉).toNat) excludeN maxAmb).1)
      have hprog : (remaining.filter fun s => !(sequence_matches_consensus_bytes s
          (find_incremental_consensus remaining.dedup (fun s => remaining.count s)
            ((⌈targetPct / 100 * (remaining.length : ℚ)⌉).toNat) excludeN
            maxAmb).1)).length < remaining.length := by
        rw [List.length_filter_lt_length_iff_exists]
        exact ⟨u, List.mem_dedup.mp hu, by simp [hum]⟩
      rw [ih (remaining.filter fun s => !(sequence_matches_consensus_bytes s
          (find_incremental_consensus remaining.dedup (fun s => remaining.count s)
            ((⌈targetPct / 100 * (remaining.length : ℚ)⌉).toNat) excludeN maxAmb).1))
        (fun s hs => hACGT s (List.mem_of_mem_filter hs))
        (fun s hs => hL s (List.mem_of_mem_filter hs))
        (by omega)]
      rw [hcov, hwms]
      exact length_filter_split _ remaining

/-- C3: for a population of equal-length A/C/G/T sequences and any target
percentage, ambiguity cap and `exclude_n` flag, the incremental cover
terminates with its fuel and the counts of the returned variants sum to
the input length — every sequence is covered exactly once across steps. -/
theorem c3_incremental_total_mass (seqs : List DnaSeq) (L : Nat) (targetPct : ℚ)
    (excludeN : Bool) (maxAmb : Option Nat)
    (hACGT : ∀ s ∈ seqs, ∀ c ∈ s, is_standard_base c = true)
    (hLen : ∀ s ∈ seqs, s.length = L) :
    ((find_incremental_variants seqs targetPct excludeN maxAmb).map
      fun v => v.count).sum = seqs.length := by
  rw [find_incremental_variants]
  by_cases hemp : seqs = []
  · rw [if_pos hemp]
    subst hemp
    rfl
  · rw [if_neg hemp]
    exact incrementalGo_mass seqs.length targetPct excludeN maxAmb L seqs.length
      seqs hACGT hLen (le_refl _)

/-- C3 witness: the incremental cover on `["ACGT","ACGT","ACGA"]` with a
50% per-step target and an ambiguity cap of 1. -/
theorem c3_incremental_total_mass_witness :
    (∀ s ∈ [['A','C','G','T'], ['A','C','G','T'], ['A','C','G','A']],
      ∀ c ∈ s, is_standard_base c = true) ∧
    (∀ s ∈ [['A','C','G','T'], ['A','C','G','T'], ['A','C','G','A']],
      List.length s = 4) ∧
    ((find_incremental_variants [['A','C','G','T'], ['A','C','G','T'],
      ['A','C','G','A']] 50 false (some 1)).map fun v => v.count).sum = 3 :=
  ⟨by decide, by decide,
   c3_incremental_total_mass [['A','C','G','T'], ['A','C','G','T'], ['A','C','G','A']]
     4 50 false (some 1) (by decide) (by decide)⟩

/-- C7 witness: the exact method on the spec's five-sequence example. -/
theorem c7_exact_method_witness :
    ([['A','C','G','T'], ['A','C','G','T'], ['A','C','G','A'], ['A','C','G','A'],
      ['A','C','G','A']] : List DnaSeq) ≠ [] ∧
    (((find_variants_no_ambiguities [['A','C','G','T'], ['A','C','G','T'],
        ['A','C','G','A'], ['A','C','G','A'], ['A','C','G','A']]).map
        fun v => (v.sequence, v.count)).Perm
      (([['A','C','G','T'], ['A','C','G','T'], ['A','C','G','A'], ['A','C','G','A'],
        ['A','C','G','A']] : List DnaSeq).dedup.map fun s =>
          (s, ([['A','C','G','T'], ['A','C','G','T'], ['A','C','G','A'],
            ['A','C','G','A'], ['A','C','G','A']] : List DnaSeq).count s)) ∧
     (find_variants_no_ambiguities [['A','C','G','T'], ['A','C','G','T'],
        ['A','C','G','A'], ['A','C','G','A'], ['A','C','G','A']]).Sorted
        (fun a b => b.count ≤ a.count) ∧
     (∀ v ∈ find_variants_no_ambiguities [['A','C','G','T'], ['A','C','G','T'],
        ['A','C','G','A'], ['A','C','G','A'], ['A','C','G','A']],
       v.percentage = (v.count : ℚ) /
         ((([['A','C','G','T'], ['A','C','G','T'], ['A','C','G','A'],
           ['A','C','G','A'], ['A','C','G','A']] : List DnaSeq).length : ℚ)) * 100) ∧
     ((find_variants_no_ambiguities [['A','C','G','T'], ['A','C','G','T'],
        ['A','C','G','A'], ['A','C','G','A'], ['A','C','G','A']]).map
        fun v => v.percentage).sum = 100 ∧
     ((find_variants_no_ambiguities
        [['A','C','G','T'], ['A','C','G','T'], ['A','C','G','A'], ['A','C','G','A'],
          ['A','C','G','A']]).map fun v => (v.sequence, v.count)) =
      [(['A','C','G','A'], 3), (['A','C','G','T'], 2)]) :=
  ⟨by decide,
   c7_exact_method [['A','C','G','T'], ['A','C','G','T'], ['A','C','G','A'],
     ['A','C','G','A'], ['A','C','G','A']] (by decide)⟩
